import Mathlib

/-!
Verification of the `coatcheck` crate (slot-based value store with
capability tickets, plus a tag generator module).

The Rust sources are embedded shallowly:

* machine integers (`usize`, `u64`, `u16`) become `Nat`, with explicit
  `% 2 ^ w` reductions at the operations whose overflow behaviour the
  source depends on (`checked_add`, wrapping `+= / -=`);
* operations that can panic return `Option` (`none` = panic);
* `Vec<Entry<V>>` becomes a `List (Entry V)` together with an explicit
  capacity counter, since `reserve` / `capacity` are part of the spec;
* the value drawn from `std::rand::random()` in `with_capacity` is passed
  as an explicit argument (the only nondeterminism in the library);
* the process-global tag generator of `tagger.rs` is modelled as a step
  relation: process state = global counter + one optional thread-local
  cursor per thread id, a schedule is the list of thread ids that call
  `next_tag`, and the mutex makes each call atomic.
-/

/-- The value of `usize::MAX + 1` (64-bit target). -/
def USIZE : Nat := 2 ^ 64

/-- Wrapping `usize` subtraction, used for `self.size -= 1` and
`self.data.len() - self.len()` (release builds wrap on underflow). -/
def usizeSub (a b : Nat) : Nat := (a + (USIZE - b % USIZE)) % USIZE

/-- `enum Entry<V> { Empty(usize /* next free index */), Full(V) }` -/
inductive Entry (V : Type) where
  | Empty : Nat → Entry V
  | Full : V → Entry V
  deriving DecidableEq, Repr

namespace Entry

variable {V : Type}

/-- `Entry::full`: take the value if it exists. -/
def full : Entry V → Option V
  | Full value => some value
  | Empty _ => none

/-- `Entry::full_ref`: get an optional reference to the value
(references are erased in the embedding). -/
def full_ref : Entry V → Option V
  | Full value => some value
  | _ => none

/-- `Entry::full_mut`: get an optional mutable reference to the value
(references are erased in the embedding). -/
def full_mut : Entry V → Option V
  | Full value => some value
  | _ => none

/-- `Entry::is_full`. -/
def is_full : Entry V → Bool
  | Full _ => true
  | _ => false

/-- `Entry::fill`: fill an empty entry with a value, returning the next
free index the entry held and the updated entry; panics (`none`) on a
`Full` entry. -/
def fill : Entry V → V → Option (Nat × Entry V)
  | Empty next_free, value => some (next_free, Full value)
  | Full _, _ => none

/-- `Entry::empty`: empty a full entry, writing `Empty(next_free)` and
returning the value; panics (`none`) on an `Empty` entry. -/
def empty : Entry V → Nat → Option (V × Entry V)
  | Full value, next_free => some (value, Empty next_free)
  | Empty _, _ => none

end Entry

/-- `struct Ticket { tag: usize, index: usize }` -/
structure Ticket where
  tag : Nat
  index : Nat
  deriving DecidableEq, Repr

/-- `enum ErrorKind { WrongCoatCheck }` (the spec calls this condition
`WrongStore`). -/
inductive ErrorKind where
  | WrongCoatCheck : ErrorKind
  deriving DecidableEq, Repr

/-- `struct ClaimError { kind: ErrorKind, ticket: Ticket }` -/
structure ClaimError where
  kind : ErrorKind
  ticket : Ticket
  deriving DecidableEq, Repr

/-- `struct AccessError { kind: ErrorKind }` -/
structure AccessError where
  kind : ErrorKind
  deriving DecidableEq, Repr

instance {ε α : Type} [DecidableEq ε] [DecidableEq α] : DecidableEq (Except ε α) :=
  fun x y =>
    match x, y with
    | Except.ok a, Except.ok b =>
      if h : a = b then Decidable.isTrue (congrArg Except.ok h)
      else Decidable.isFalse (fun hh => h (Except.ok.inj hh))
    | Except.error a, Except.error b =>
      if h : a = b then Decidable.isTrue (congrArg Except.error h)
      else Decidable.isFalse (fun hh => h (Except.error.inj hh))
    | Except.ok _, Except.error _ => Decidable.isFalse (fun hh => Except.noConfusion hh)
    | Except.error _, Except.ok _ => Decidable.isFalse (fun hh => Except.noConfusion hh)

/-- `struct CoatCheck<V> { tag: usize, data: Vec<Entry<V>>, size: usize,
next_free: usize }`.  `dataCap` tracks `data`'s `Vec` capacity, which the
source reads through `capacity`/`reserve`/`reserve_exact`/`push`. -/
structure CoatCheck (V : Type) where
  tag : Nat
  data : List (Entry V)
  dataCap : Nat
  size : Nat
  next_free : Nat
  deriving DecidableEq, Repr

/-- `Vec::push`'s effect on the capacity: unchanged while there is spare
capacity, otherwise an amortized growth to at least `len + 1`. -/
def vecPushCap (len cap : Nat) : Nat :=
  if len < cap then cap else max (2 * cap) (len + 1)

/-- `Vec::reserve additional`: guarantees `cap ≥ len + additional`
(the allocator may give more; the model gives the minimum). -/
def vecReserve (len cap additional : Nat) : Nat :=
  if cap < len + additional then len + additional else cap

/-- `Vec::reserve_exact additional`: same postcondition as `reserve`. -/
def vecReserveExact (len cap additional : Nat) : Nat :=
  if cap < len + additional then len + additional else cap

namespace CoatCheck

variable {V : Type}

/-- `CoatCheck::with_capacity`.  The source draws the tag from
`std::rand::random()`; the drawn value is the explicit `randomTag`
argument. -/
def with_capacity (capacity : Nat) (randomTag : Nat) : CoatCheck V :=
  { tag := randomTag, data := [], dataCap := capacity, next_free := 0, size := 0 }

/-- `CoatCheck::new`, i.e. `with_capacity(0)`. -/
def new (randomTag : Nat) : CoatCheck V := with_capacity 0 randomTag

/-- `CoatCheck::capacity`. -/
def capacity (cc : CoatCheck V) : Nat := cc.dataCap

/-- `CoatCheck::len`. -/
def len (cc : CoatCheck V) : Nat := cc.size

/-- `CoatCheck::is_empty`. -/
def is_empty (cc : CoatCheck V) : Bool := cc.size == 0

/-- `CoatCheck::reserve`. -/
def reserve (cc : CoatCheck V) (additional : Nat) : CoatCheck V :=
  let extra_space := usizeSub cc.data.length cc.len
  if extra_space < additional then
    { cc with dataCap := vecReserve cc.data.length cc.dataCap (additional - extra_space) }
  else cc

/-- `CoatCheck::reserve_exact`. -/
def reserve_exact (cc : CoatCheck V) (additional : Nat) : CoatCheck V :=
  let extra_space := usizeSub cc.data.length cc.len
  if extra_space < additional then
    { cc with dataCap := vecReserveExact cc.data.length cc.dataCap (additional - extra_space) }
  else cc

/-- `CoatCheck::check`.  Returns `none` on panic: the
`checked_add(1).unwrap()` overflow of `next_free`, an out-of-bounds
`self.data[loc]`, or `Entry::fill` on a `Full` entry (the latter two are
impossible in reachable states). -/
def check (cc : CoatCheck V) (value : V) : Option (Ticket × CoatCheck V) :=
  let loc := cc.next_free
  if loc = cc.data.length then
    if loc + 1 < USIZE then
      some (⟨cc.tag, loc⟩,
        { tag := cc.tag,
          data := cc.data ++ [Entry.Full value],
          dataCap := vecPushCap cc.data.length cc.dataCap,
          size := (cc.size + 1) % USIZE,
          next_free := loc + 1 })
    else none
  else
    match cc.data.get? loc with
    | none => none
    | some e =>
      match e.fill value with
      | none => none
      | some (nf, e') =>
        some (⟨cc.tag, loc⟩,
          { tag := cc.tag,
            data := cc.data.set loc e',
            dataCap := cc.dataCap,
            size := (cc.size + 1) % USIZE,
            next_free := nf })

/-- `CoatCheck::claim`.  On a tag mismatch, returns the `ClaimError`
carrying the presented ticket and leaves the store unchanged; on a match
it empties the slot (panicking, `none`, if the index is out of bounds or
the slot is `Empty`), pushes the freed slot on the free list and
decrements the size. -/
def claim (cc : CoatCheck V) (ticket : Ticket) :
    Option (Except ClaimError V × CoatCheck V) :=
  if ticket.tag ≠ cc.tag then
    some (Except.error ⟨ErrorKind.WrongCoatCheck, ticket⟩, cc)
  else
    match cc.data.get? ticket.index with
    | none => none
    | some e =>
      match e.empty cc.next_free with
      | none => none
      | some (value, e') =>
        some (Except.ok value,
          { tag := cc.tag,
            data := cc.data.set ticket.index e',
            dataCap := cc.dataCap,
            size := usizeSub cc.size 1,
            next_free := ticket.index })

/-- `CoatCheck::get`.  Tag mismatch is the recoverable `AccessError`;
an out-of-bounds index or an `Empty` slot panics (`none`). -/
def get (cc : CoatCheck V) (ticket : Ticket) : Option (Except AccessError V) :=
  if ticket.tag ≠ cc.tag then
    some (Except.error ⟨ErrorKind.WrongCoatCheck⟩)
  else
    match cc.data.get? ticket.index with
    | some (Entry.Full v) => some (Except.ok v)
    | some (Entry.Empty _) => none
    | none => none

/-- `CoatCheck::get_mut`.  Same branches as `get`; the call itself does
not mutate the store, so the store is returned unchanged alongside the
borrowed value. -/
def get_mut (cc : CoatCheck V) (ticket : Ticket) :
    Option (Except AccessError V × CoatCheck V) :=
  if ticket.tag ≠ cc.tag then
    some (Except.error ⟨ErrorKind.WrongCoatCheck⟩, cc)
  else
    match cc.data.get? ticket.index with
    | some (Entry.Full v) => some (Except.ok v, cc)
    | some (Entry.Empty _) => none
    | none => none

/-- `CoatCheck::contains_ticket`, release semantics: the tag comparison
only. -/
def contains_ticket (cc : CoatCheck V) (ticket : Ticket) : Bool :=
  ticket.tag == cc.tag

/-- `CoatCheck::contains_ticket`, debug semantics: the
`debug_assert!(self.data[ticket.index].is_full())` indexes the slot (and
requires it to be `Full`) before the tag comparison, so it can panic
(`none`). -/
def contains_ticket_debug (cc : CoatCheck V) (ticket : Ticket) : Option Bool :=
  match cc.data.get? ticket.index with
  | none => none
  | some e => if e.is_full then some (ticket.tag == cc.tag) else none

end CoatCheck

/-- `struct GenericIter { inner, remaining }`: wraps an inner iterator,
reports `remaining` as its exact length and yields at most `remaining`
elements. -/
structure GenericIter (V : Type) where
  inner : List V
  remaining : Nat
  deriving DecidableEq, Repr

namespace GenericIter

variable {V : Type}

/-- The full sequence of items a `GenericIter` yields: `next` hands out
`inner`'s elements while decrementing `remaining`, so the yielded
sequence is `inner` truncated to `remaining`. -/
def toList (g : GenericIter V) : List V := g.inner.take g.remaining

/-- `ExactSizeIterator::len` of a fresh `GenericIter`. -/
def reportedLen (g : GenericIter V) : Nat := g.remaining

end GenericIter

namespace CoatCheck

variable {V : Type}

/-- `CoatCheck::iter`: `data.iter().filter_map(Entry::full_ref)` wrapped
in a `GenericIter` with `remaining = self.len()`. -/
def iter (cc : CoatCheck V) : GenericIter V :=
  { inner := cc.data.filterMap Entry.full_ref, remaining := cc.len }

/-- `CoatCheck::iter_mut`: `data.iter_mut().filter_map(Entry::full_mut)`
wrapped in a `GenericIter` with `remaining = self.len()`. -/
def iter_mut (cc : CoatCheck V) : GenericIter V :=
  { inner := cc.data.filterMap Entry.full_mut, remaining := cc.len }

/-- `CoatCheck::into_iter`: `data.into_iter().filter_map(Entry::full)`
wrapped in a `GenericIter` with `remaining = self.len()`. -/
def into_iter (cc : CoatCheck V) : GenericIter V :=
  { inner := cc.data.filterMap Entry.full, remaining := cc.len }

/-- Consuming `k` items of the `Tickets` iterator checks in the first
`k` produced items one `check` at a time (`Tickets::next`). -/
def ticketsConsume (cc : CoatCheck V) : List V → Option (List Ticket × CoatCheck V)
  | [] => some ([], cc)
  | v :: rest =>
    match cc.check v with
    | none => none
    | some (t, cc') =>
      match cc'.ticketsConsume rest with
      | none => none
      | some (ts, cc'') => some (t :: ts, cc'')

/-- `CoatCheck::check_all`: reserves the source iterator's lower size
hint (for a list iterator, its length) and wraps the iterator in a
`Tickets` value; nothing is checked in yet.  The returned pair is the
`Tickets` state: the store after the reserve, and the pending items. -/
def check_all (cc : CoatCheck V) (items : List V) : CoatCheck V × List V :=
  (cc.reserve items.length, items)

end CoatCheck

/-! ## The tag generator (`tagger.rs`) -/

/-- The value of `u64::MAX + 1`. -/
def U64 : Nat := 2 ^ 64

/-- The value of `u16::MAX`. -/
def U16MAX : Nat := 65535

/-- `struct TagPrefix(u64, u32, u16)` (the Rust name `TagPrefix` is not a
legal Lean identifier here, so the type is called `TagPfx`). -/
structure TagPfx where
  a : Nat
  b : Nat
  c : Nat
  deriving DecidableEq, Repr

/-- `struct Tag { prefix: TagPrefix, offset: u16 }` (`prefix` is not a
legal Lean identifier, so the field is called `pfx`). -/
structure Tag where
  pfx : TagPfx
  offset : Nat
  deriving DecidableEq, Repr

/-- `Tagger::next` acting on the mutex-protected `(u64, u64)` counter:
returns the prefix built from the old value (`TagPrefix(old.0,
(old.1 >> 16) as u32, old.1 as u16)`) and the advanced counter; `none`
is the `CoatCheck ID overflow!` panic of `checked_add`. -/
def Tagger.next (old : Nat × Nat) : Option (TagPfx × (Nat × Nat)) :=
  match (if (old.2 + 1) % U64 ≤ U16MAX then some (old.1, (old.2 + 1) % U64)
         else if old.1 + 1 < U64 then some (old.1 + 1, 0) else none) with
  | none => none
  | some nv => some (⟨old.1, (old.2 >>> 16) % 2 ^ 32, old.2 % 2 ^ 16⟩, nv)

/-- The process state of the tag generator: the global
`GLOBAL_TAG_PREFIX` counter plus the `NEXT_LOCAL_TAG` thread-local cell
of each thread (`none` before the thread's first call initializes it). -/
structure TagProcState where
  glob : Nat × Nat
  locals : Nat → Option Tag

/-- Process start: the global counter is `(0, 0)` and no thread-local
cell is initialized yet. -/
def tagInitState : TagProcState :=
  { glob := (0, 0), locals := fun _ => none }

/-- The body of `next_tag` once the thread-local cell holds `cur`:
returns `cur` and stores its successor, drawing a fresh prefix from the
global counter when the `u16` offset space is exhausted. -/
def nextTagBody (g : Nat × Nat) (cur : Tag) : Option (Tag × (Nat × Nat) × Tag) :=
  if cur.offset = U16MAX then
    match Tagger.next g with
    | none => none
    | some (p, g') => some (cur, g', ⟨p, 0⟩)
  else
    some (cur, g, ⟨cur.pfx, cur.offset + 1⟩)

/-- One atomic `next_tag()` call by thread `t` (the global counter is
mutex-protected and the rest is thread-local, so every interleaving is a
sequence of such steps).  A first call by a thread initializes its
thread-local cell with `Tag { prefix: GLOBAL_TAG_PREFIX.next(), offset: 0 }`. -/
def nextTagStep (s : TagProcState) (t : Nat) : Option (Tag × TagProcState) :=
  match s.locals t with
  | none =>
    match Tagger.next s.glob with
    | none => none
    | some (p, g') =>
      match nextTagBody g' ⟨p, 0⟩ with
      | none => none
      | some (ret, g'', nxt) =>
        some (ret, { glob := g'', locals := Function.update s.locals t (some nxt) })
  | some cur =>
    match nextTagBody s.glob cur with
    | none => none
    | some (ret, g'', nxt) =>
      some (ret, { glob := g'', locals := Function.update s.locals t (some nxt) })

/-- Run a schedule (the list of thread ids that call `next_tag`, in
order) from a process state, collecting the returned tags. -/
def runTags (s : TagProcState) : List Nat → Option (List Tag × TagProcState)
  | [] => some ([], s)
  | t :: ts =>
    match nextTagStep s t with
    | none => none
    | some (tag, s') =>
      match runTags s' ts with
      | none => none
      | some (l, s'') => some (tag :: l, s'')

/-- The tags returned by running a schedule from process start. -/
def runTagsOut (sch : List Nat) : Option (List Tag) :=
  (runTags tagInitState sch).map (fun p => p.1)

/-- The subsequence of `tags` produced by thread `t` under schedule
`sch`. -/
def threadTags (sch : List Nat) (tags : List Tag) (t : Nat) : List Tag :=
  ((sch.zip tags).filter (fun p => p.1 == t)).map (fun p => p.2)

/-- Relation between consecutive tags returned to one thread: below a
rollover the offset increases by one under the same prefix; at a
rollover (`offset = u16::MAX`) the next tag has a fresh prefix and
offset `0`. -/
def TagStepRel (x y : Tag) : Prop :=
  if x.offset = U16MAX then y.offset = 0 ∧ y.pfx ≠ x.pfx
  else y.pfx = x.pfx ∧ y.offset = x.offset + 1

/-! ## Store invariants and reachability -/

/-- `FreeChain data i is`: starting at index `i`, following the
`next_free` links of `Empty` slots visits exactly the indices `is` (in
order) and ends at the sentinel `data.length`. -/
inductive FreeChain {V : Type} (data : List (Entry V)) : Nat → List Nat → Prop where
  | nil : FreeChain data data.length []
  | cons {i n : Nat} {is : List Nat} :
      data.get? i = some (Entry.Empty n) →
      FreeChain data n is →
      FreeChain data i (i :: is)

/-- The live values of a store, in slot order. -/
def CoatCheck.storedList {V : Type} (cc : CoatCheck V) : List V :=
  cc.data.filterMap Entry.full

/-- The live values of a store, as a multiset. -/
def CoatCheck.storedMS {V : Type} (cc : CoatCheck V) : Multiset V :=
  (cc.storedList : Multiset V)

/-- The structural invariant of a store together with its outstanding
tickets `ts`:

* the storage length fits `usize`, and the `Vec` capacity is at least
  the storage length;
* `size` counts the `Full` slots;
* the free list visits every `Empty` slot exactly once and ends at the
  sentinel;
* there is one outstanding ticket per `Full` slot: tickets carry the
  store's tag, point at pairwise distinct `Full` slots, and number
  exactly `size`. -/
structure StoreInv {V : Type} (cc : CoatCheck V) (ts : List Ticket) : Prop where
  len_lt : cc.data.length < USIZE
  cap_ge : cc.data.length ≤ cc.dataCap
  size_eq : cc.size = cc.storedList.length
  free_chain : ∃ is, FreeChain cc.data cc.next_free is ∧ is.Nodup ∧
    ∀ j k, cc.data.get? j = some (Entry.Empty k) → j ∈ is
  tickets_count : ts.length = cc.size
  tickets_tag : ∀ t ∈ ts, t.tag = cc.tag
  tickets_full : ∀ t ∈ ts, ∃ v, cc.data.get? t.index = some (Entry.Full v)
  tickets_nodup : (ts.map Ticket.index).Nodup

/-- The states reachable from construction by `check` and `claim`
operations, together with the multiset of outstanding (issued and not
yet claimed) tickets.  Successful claims present an outstanding ticket
(tickets cannot be forged or duplicated); failed claims may present any
ticket (e.g. one issued by another store). -/
inductive Reach {V : Type} : CoatCheck V → List Ticket → Prop where
  | init (capacity randomTag : Nat) :
      Reach (CoatCheck.with_capacity capacity randomTag) []
  | check_step {cc : CoatCheck V} {ts : List Ticket} {v : V} {t : Ticket}
      {cc' : CoatCheck V} :
      Reach cc ts → cc.check v = some (t, cc') → Reach cc' (t :: ts)
  | claim_ok {cc : CoatCheck V} {ts : List Ticket} {t : Ticket} {v : V}
      {cc' : CoatCheck V} :
      Reach cc ts → t ∈ ts → cc.claim t = some (Except.ok v, cc') →
      Reach cc' (ts.erase t)
  | claim_err {cc : CoatCheck V} {ts : List Ticket} {t : Ticket} {e : ClaimError}
      {cc' : CoatCheck V} :
      Reach cc ts → cc.claim t = some (Except.error e, cc') → Reach cc' ts

/-! ## Basic lemmas about `check` and `claim` -/

/-- Inversion for a successful `check`: the issued ticket carries the
store's tag and the chosen index `next_free`, and the store is updated
by either the push branch or the slot-reuse branch. -/
theorem CoatCheck.check_cases {V : Type} {cc : CoatCheck V} {v : V} {t : Ticket}
    {cc' : CoatCheck V} (h : cc.check v = some (t, cc')) :
    t = ⟨cc.tag, cc.next_free⟩ ∧
    ((cc.next_free = cc.data.length ∧ cc.next_free + 1 < USIZE ∧
       cc' = ⟨cc.tag, cc.data ++ [Entry.Full v], vecPushCap cc.data.length cc.dataCap,
              (cc.size + 1) % USIZE, cc.next_free + 1⟩) ∨
     (∃ k, cc.next_free ≠ cc.data.length ∧
       cc.data.get? cc.next_free = some (Entry.Empty k) ∧
       cc' = ⟨cc.tag, cc.data.set cc.next_free (Entry.Full v), cc.dataCap,
              (cc.size + 1) % USIZE, k⟩)) := by
  simp only [CoatCheck.check] at h
  by_cases h1 : cc.next_free = cc.data.length
  · rw [if_pos h1] at h
    by_cases h2 : cc.next_free + 1 < USIZE
    · rw [if_pos h2] at h
      injection h with h
      injection h with ht hcc
      exact ⟨ht.symm, Or.inl ⟨h1, h2, hcc.symm⟩⟩
    · rw [if_neg h2] at h
      exact absurd h (by simp)
  · rw [if_neg h1] at h
    cases hg : cc.data.get? cc.next_free with
    | none => rw [hg] at h; exact absurd h (by simp)
    | some e =>
      rw [hg] at h
      cases e with
      | Full w => simp [Entry.fill] at h
      | Empty k =>
        simp only [Entry.fill] at h
        injection h with h
        injection h with ht hcc
        exact ⟨ht.symm, Or.inr ⟨k, h1, rfl, hcc.symm⟩⟩

/-- The push branch of `check`. -/
theorem CoatCheck.check_push {V : Type} {cc : CoatCheck V} (v : V)
    (h1 : cc.next_free = cc.data.length) (h2 : cc.next_free + 1 < USIZE) :
    cc.check v = some (⟨cc.tag, cc.next_free⟩,
      ⟨cc.tag, cc.data ++ [Entry.Full v], vecPushCap cc.data.length cc.dataCap,
       (cc.size + 1) % USIZE, cc.next_free + 1⟩) := by
  simp only [CoatCheck.check]
  rw [if_pos h1, if_pos h2]

/-- The slot-reuse branch of `check`. -/
theorem CoatCheck.check_reuse {V : Type} {cc : CoatCheck V} (v : V) {k : Nat}
    (h1 : cc.next_free ≠ cc.data.length)
    (hg : cc.data.get? cc.next_free = some (Entry.Empty k)) :
    cc.check v = some (⟨cc.tag, cc.next_free⟩,
      ⟨cc.tag, cc.data.set cc.next_free (Entry.Full v), cc.dataCap,
       (cc.size + 1) % USIZE, k⟩) := by
  simp only [CoatCheck.check]
  rw [if_neg h1, hg]
  rfl

/-- The overflow panic of `check`: when the free list is empty and
`next_free` cannot be advanced past a fresh slot, `check` panics. -/
theorem CoatCheck.check_overflow {V : Type} {cc : CoatCheck V} (v : V)
    (h1 : cc.next_free = cc.data.length) (h2 : ¬ cc.next_free + 1 < USIZE) :
    cc.check v = none := by
  simp only [CoatCheck.check]
  rw [if_pos h1, if_neg h2]

/-- A `claim` with a foreign tag fails with `WrongCoatCheck`, hands the
ticket back unchanged inside the error, and leaves the store unchanged. -/
theorem CoatCheck.claim_wrong_tag {V : Type} {cc : CoatCheck V} {tk : Ticket}
    (h : tk.tag ≠ cc.tag) :
    cc.claim tk = some (Except.error ⟨ErrorKind.WrongCoatCheck, tk⟩, cc) := by
  simp only [CoatCheck.claim]
  rw [if_pos h]

/-- A `claim` with a matching tag on a `Full` slot succeeds. -/
theorem CoatCheck.claim_full {V : Type} {cc : CoatCheck V} {tk : Ticket} {v : V}
    (htag : tk.tag = cc.tag) (hg : cc.data.get? tk.index = some (Entry.Full v)) :
    cc.claim tk = some (Except.ok v,
      ⟨cc.tag, cc.data.set tk.index (Entry.Empty cc.next_free), cc.dataCap,
       usizeSub cc.size 1, tk.index⟩) := by
  simp only [CoatCheck.claim]
  rw [if_neg (by simp [htag]), hg]
  rfl

/-- Inversion for `claim`. -/
theorem CoatCheck.claim_cases {V : Type} {cc : CoatCheck V} {tk : Ticket}
    {r : Except ClaimError V} {cc' : CoatCheck V}
    (h : cc.claim tk = some (r, cc')) :
    (tk.tag ≠ cc.tag ∧ r = Except.error ⟨ErrorKind.WrongCoatCheck, tk⟩ ∧ cc' = cc) ∨
    (∃ v, tk.tag = cc.tag ∧ cc.data.get? tk.index = some (Entry.Full v) ∧
      r = Except.ok v ∧
      cc' = ⟨cc.tag, cc.data.set tk.index (Entry.Empty cc.next_free), cc.dataCap,
             usizeSub cc.size 1, tk.index⟩) := by
  simp only [CoatCheck.claim] at h
  by_cases h1 : tk.tag = cc.tag
  · rw [if_neg (by simp [h1])] at h
    cases hg : cc.data.get? tk.index with
    | none => rw [hg] at h; exact absurd h (by simp)
    | some e =>
      rw [hg] at h
      cases e with
      | Empty k => simp [Entry.empty] at h
      | Full v =>
        simp only [Entry.empty] at h
        injection h with h
        injection h with hr hcc
        exact Or.inr ⟨v, h1, rfl, hr.symm, hcc.symm⟩
  · rw [if_pos h1] at h
    injection h with h
    injection h with hr hcc
    exact Or.inl ⟨h1, hr.symm, hcc.symm⟩

/-! ## Claim C1: check / claim round trip -/

/-- C1: for every store `S` and value `x`, checking in `x` and
immediately claiming the returned ticket yields exactly `Ok(x)`. -/
theorem check_then_claim_roundtrip {V : Type} (cc : CoatCheck V) (x : V)
    (t : Ticket) (cc' : CoatCheck V) (h : cc.check x = some (t, cc')) :
    ∃ cc'', cc'.claim t = some (Except.ok x, cc'') := by
  obtain ⟨ht, hcase⟩ := CoatCheck.check_cases h
  subst ht
  rcases hcase with ⟨h1, _h2, hcc⟩ | ⟨k, h1, hg, hcc⟩ <;> subst hcc
  · refine ⟨_, CoatCheck.claim_full rfl ?_⟩
    show (cc.data ++ [Entry.Full x]).get? cc.next_free = _
    rw [h1]
    exact List.get?_concat_length _ _
  · refine ⟨_, CoatCheck.claim_full rfl ?_⟩
    show (cc.data.set cc.next_free (Entry.Full x)).get? cc.next_free = _
    have hlt : cc.next_free < cc.data.length := (List.get?_eq_some.mp hg).fst
    exact List.get?_set_eq_of_lt _ hlt

/-- Witness for C1 at a concrete input. -/
theorem check_then_claim_roundtrip_witness :
    (CoatCheck.new 7 : CoatCheck Nat).check 5
      = some (⟨7, 0⟩, ⟨7, [Entry.Full 5], 1, 1, 1⟩) ∧
    ∃ cc'', CoatCheck.claim (⟨7, [Entry.Full 5], 1, 1, 1⟩ : CoatCheck Nat) ⟨7, 0⟩
      = some (Except.ok 5, cc'') :=
  ⟨by decide, check_then_claim_roundtrip (CoatCheck.new 7) 5 _ _ (by decide)⟩

/-! ## Claim C2: tickets presented to the wrong store -/

/-- C2 counterexample: the claim as stated (a ticket from store `A`
presented to any *distinct* store `B` always fails with the wrong-store
error) is false, because construction tags come from `std::rand::random()`
and two distinct stores can share a tag.  Here both stores were
constructed while the random source produced `42`; `B₁ = ⟨42, [Full 9],
1, 1, 1⟩` is a store distinct from `A₁ = ⟨42, [Full 5], 1, 1, 1⟩`, yet
presenting `A`'s ticket `⟨42, 0⟩` to `B₁` *succeeds* and hands out `B`'s
value `9` instead of failing with `WrongCoatCheck`. -/
theorem wrong_store_counterexample :
    (CoatCheck.new 42 : CoatCheck Nat).check 5
      = some (⟨42, 0⟩, ⟨42, [Entry.Full 5], 1, 1, 1⟩) ∧
    (CoatCheck.new 42 : CoatCheck Nat).check 9
      = some (⟨42, 0⟩, ⟨42, [Entry.Full 9], 1, 1, 1⟩) ∧
    (⟨42, [Entry.Full 9], 1, 1, 1⟩ : CoatCheck Nat) ≠ ⟨42, [Entry.Full 5], 1, 1, 1⟩ ∧
    CoatCheck.claim (⟨42, [Entry.Full 9], 1, 1, 1⟩ : CoatCheck Nat) ⟨42, 0⟩
      = some (Except.ok 9, ⟨42, [Entry.Empty 1], 1, 0, 0⟩) := by
  decide

/-- C2 amended: provided the two stores' *tags* differ (which store
distinctness alone does not guarantee under `random()` tags), a ticket
issued by `A` presented to `B` fails with the `WrongCoatCheck` error on
`claim`, `get` and `get_mut`; the failed `claim` returns the original
ticket unchanged (same tag and index) inside the error, and `B` is
unchanged by each failed call. -/
theorem wrong_tag_always_fails {V : Type} (A B : CoatCheck V) (x : V)
    (t : Ticket) (A' : CoatCheck V) (hcheck : A.check x = some (t, A'))
    (htag : A.tag ≠ B.tag) :
    B.claim t = some (Except.error ⟨ErrorKind.WrongCoatCheck, t⟩, B) ∧
    B.get t = some (Except.error ⟨ErrorKind.WrongCoatCheck⟩) ∧
    B.get_mut t = some (Except.error ⟨ErrorKind.WrongCoatCheck⟩, B) := by
  obtain ⟨ht, -⟩ := CoatCheck.check_cases hcheck
  have htt : t.tag ≠ B.tag := by rw [ht]; exact htag
  refine ⟨CoatCheck.claim_wrong_tag htt, ?_, ?_⟩
  · simp only [CoatCheck.get]
    rw [if_pos htt]
  · simp only [CoatCheck.get_mut]
    rw [if_pos htt]

/-- Witness for the amended C2 at a concrete input. -/
theorem wrong_tag_always_fails_witness :
    ((CoatCheck.new 1 : CoatCheck Nat).check 5
      = some (⟨1, 0⟩, ⟨1, [Entry.Full 5], 1, 1, 1⟩)) ∧
    (CoatCheck.new 1 : CoatCheck Nat).tag ≠ (CoatCheck.new 2 : CoatCheck Nat).tag ∧
    ((CoatCheck.new 2 : CoatCheck Nat).claim ⟨1, 0⟩
      = some (Except.error ⟨ErrorKind.WrongCoatCheck, ⟨1, 0⟩⟩, CoatCheck.new 2) ∧
     (CoatCheck.new 2 : CoatCheck Nat).get ⟨1, 0⟩
      = some (Except.error ⟨ErrorKind.WrongCoatCheck⟩) ∧
     (CoatCheck.new 2 : CoatCheck Nat).get_mut ⟨1, 0⟩
      = some (Except.error ⟨ErrorKind.WrongCoatCheck⟩, CoatCheck.new 2)) :=
  ⟨by decide, by decide,
    wrong_tag_always_fails (CoatCheck.new 1) (CoatCheck.new 2) 5 ⟨1, 0⟩
      ⟨1, [Entry.Full 5], 1, 1, 1⟩ (by decide) (by decide)⟩

/-! ## Claim C3: where construction tags come from -/

/-- C3 counterexample: `CoatCheck::with_capacity` draws its tag from
`std::rand::random()`, not from the tagger module's `next_tag` (nothing
in `lib.rs` references `tagger.rs`), so two distinct stores constructed
within one process lifetime need *not* have distinct tags: whenever the
random source repeats a value (here `42`), the two stores collide. -/
theorem construction_tag_collision :
    (CoatCheck.with_capacity 0 42 : CoatCheck Nat)
      ≠ (CoatCheck.with_capacity 7 42 : CoatCheck Nat) ∧
    (CoatCheck.with_capacity 0 42 : CoatCheck Nat).tag
      = (CoatCheck.with_capacity 7 42 : CoatCheck Nat).tag := by
  decide

/-- C3 amended: every store construction (`new` / `with_capacity`) sets
its tag to exactly the value drawn from the process random source
(`std::rand::random()`), starts empty with `next_free = 0`, and requests
the given capacity; `new` is `with_capacity 0`.  Distinctness of the
tags of two stores is therefore only as good as the random source, not
guaranteed. -/
theorem construction_tag_from_random (V : Type) (capacity randomTag : Nat) :
    (CoatCheck.with_capacity capacity randomTag : CoatCheck V).tag = randomTag ∧
    (CoatCheck.with_capacity capacity randomTag : CoatCheck V).len = 0 ∧
    (CoatCheck.with_capacity capacity randomTag : CoatCheck V).next_free = 0 ∧
    (CoatCheck.with_capacity capacity randomTag : CoatCheck V).capacity = capacity ∧
    (CoatCheck.new randomTag : CoatCheck V) = CoatCheck.with_capacity 0 randomTag :=
  ⟨rfl, rfl, rfl, rfl, rfl⟩

/-! ## Claim C5: the `check` operation -/

/-- C5: `check(value)` behaves exactly as specified.  When the free list
is empty (`next_free = data.length`) it appends a new `Full` slot and
advances `next_free` past it, panicking fatally when the index would
overflow `usize`; otherwise it overwrites the `Empty` slot at
`next_free` with `Full(value)` and sets `next_free` to the link that
slot held.  In both cases it increments the live count and returns a
ticket carrying the store's tag and the chosen index.  (The hypothesis
`cc.size + 1 < USIZE` holds in every reachable state, where
`size ≤ data.length < USIZE`.) -/
theorem check_spec {V : Type} (cc : CoatCheck V) (v : V)
    (hsize : cc.size + 1 < USIZE) :
    (cc.next_free = cc.data.length →
      (USIZE ≤ cc.next_free + 1 → cc.check v = none) ∧
      (cc.next_free + 1 < USIZE →
        cc.check v = some (⟨cc.tag, cc.next_free⟩,
          ⟨cc.tag, cc.data ++ [Entry.Full v],
           vecPushCap cc.data.length cc.dataCap,
           cc.size + 1, cc.next_free + 1⟩))) ∧
    (∀ k, cc.next_free ≠ cc.data.length →
      cc.data.get? cc.next_free = some (Entry.Empty k) →
      cc.check v = some (⟨cc.tag, cc.next_free⟩,
        ⟨cc.tag, cc.data.set cc.next_free (Entry.Full v), cc.dataCap,
         cc.size + 1, k⟩)) := by
  have hmod : (cc.size + 1) % USIZE = cc.size + 1 := Nat.mod_eq_of_lt hsize
  refine ⟨fun h1 => ⟨fun h2 => ?_, fun h2 => ?_⟩, fun k h1 hg => ?_⟩
  · exact CoatCheck.check_overflow v h1 (by omega)
  · rw [CoatCheck.check_push v h1 h2, hmod]
  · rw [CoatCheck.check_reuse v h1 hg, hmod]

/-- Witness for C5 exercising both branches at concrete inputs. -/
theorem check_spec_witness :
    ((CoatCheck.new 3 : CoatCheck Nat).size + 1 < USIZE ∧
     (CoatCheck.new 3 : CoatCheck Nat).next_free
       = (CoatCheck.new 3 : CoatCheck Nat).data.length ∧
     (CoatCheck.new 3 : CoatCheck Nat).next_free + 1 < USIZE ∧
     (CoatCheck.new 3 : CoatCheck Nat).check 5
       = some (⟨3, 0⟩, ⟨3, [Entry.Full 5], 1, 1, 1⟩)) ∧
    ((⟨3, [Entry.Empty 1], 1, 0, 0⟩ : CoatCheck Nat).size + 1 < USIZE ∧
     (⟨3, [Entry.Empty 1], 1, 0, 0⟩ : CoatCheck Nat).next_free ≠ 1 ∧
     (⟨3, [Entry.Empty 1], 1, 0, 0⟩ : CoatCheck Nat).data.get? 0
       = some (Entry.Empty 1) ∧
     (⟨3, [Entry.Empty 1], 1, 0, 0⟩ : CoatCheck Nat).check 5
       = some (⟨3, 0⟩, ⟨3, [Entry.Full 5], 1, 1, 1⟩)) := by
  have h1 := check_spec (CoatCheck.new 3 : CoatCheck Nat) 5 (by decide)
  have h2 := check_spec (⟨3, [Entry.Empty 1], 1, 0, 0⟩ : CoatCheck Nat) 5 (by decide)
  exact ⟨⟨by decide, by decide, by decide, (h1.1 (by decide)).2 (by decide)⟩,
         ⟨by decide, by decide, by decide, h2.2 1 (by decide) (by decide)⟩⟩

/-! ## Claim C10: out-of-bounds indices of tag-matching tickets panic -/

/-- C10: when a ticket's tag matches the store but its index is at or
past the storage length, `claim`, `get` and `get_mut` panic on the
out-of-bounds slot access instead of returning a recoverable error, and
the debug-build consistency check of `contains_ticket` (which indexes
the slot before comparing tags) panics as well; the release
`contains_ticket` is the unguarded tag comparison and accepts the
ticket. -/
theorem oob_index_panics {V : Type} (cc : CoatCheck V) (t : Ticket)
    (htag : t.tag = cc.tag) (hoob : cc.data.length ≤ t.index) :
    cc.claim t = none ∧ cc.get t = none ∧ cc.get_mut t = none ∧
    cc.contains_ticket_debug t = none ∧ cc.contains_ticket t = true := by
  have hg : cc.data.get? t.index = none := List.get?_eq_none.mpr hoob
  refine ⟨?_, ?_, ?_, ?_, ?_⟩
  · simp only [CoatCheck.claim]
    rw [if_neg (by simp [htag]), hg]
  · simp only [CoatCheck.get]
    rw [if_neg (by simp [htag]), hg]
  · simp only [CoatCheck.get_mut]
    rw [if_neg (by simp [htag]), hg]
  · simp only [CoatCheck.contains_ticket_debug]
    rw [hg]
  · simp [CoatCheck.contains_ticket, htag]

/-- Witness for C10 at a concrete input. -/
theorem oob_index_panics_witness :
    ((⟨3, 0⟩ : Ticket).tag = (CoatCheck.new 3 : CoatCheck Nat).tag ∧
     (CoatCheck.new 3 : CoatCheck Nat).data.length ≤ (⟨3, 0⟩ : Ticket).index) ∧
    ((CoatCheck.new 3 : CoatCheck Nat).claim ⟨3, 0⟩ = none ∧
     (CoatCheck.new 3 : CoatCheck Nat).get ⟨3, 0⟩ = none ∧
     (CoatCheck.new 3 : CoatCheck Nat).get_mut ⟨3, 0⟩ = none ∧
     (CoatCheck.new 3 : CoatCheck Nat).contains_ticket_debug ⟨3, 0⟩ = none ∧
     (CoatCheck.new 3 : CoatCheck Nat).contains_ticket ⟨3, 0⟩ = true) :=
  ⟨⟨by decide, by decide⟩,
    oob_index_panics (CoatCheck.new 3) ⟨3, 0⟩ (by decide) (by decide)⟩

/-! ## Arithmetic and list helper lemmas -/

theorem usizeSub_one {a : Nat} (h0 : 0 < a) (h1 : a < USIZE) :
    usizeSub a 1 = a - 1 := by
  have hU : (1 : Nat) < USIZE := by decide
  unfold usizeSub
  rw [Nat.mod_eq_of_lt hU]
  have he : a + (USIZE - 1) = (a - 1) + USIZE := by omega
  rw [he, Nat.add_mod_right, Nat.mod_eq_of_lt (by omega)]

theorem usizeSub_eq_sub {a b : Nat} (hb : b ≤ a) (ha : a < USIZE) :
    usizeSub a b = a - b := by
  have hbU : b < USIZE := lt_of_le_of_lt hb ha
  unfold usizeSub
  rw [Nat.mod_eq_of_lt hbU]
  have he : a + (USIZE - b) = (a - b) + USIZE := by omega
  rw [he, Nat.add_mod_right, Nat.mod_eq_of_lt (by omega)]

theorem filterMap_full_append {V : Type} (l : List (Entry V)) (v : V) :
    (l ++ [Entry.Full v]).filterMap Entry.full = l.filterMap Entry.full ++ [v] := by
  rw [List.filterMap_append]
  rfl

theorem filterMap_full_length_le {V : Type} (l : List (Entry V)) :
    (l.filterMap Entry.full).length ≤ l.length :=
  List.length_filterMap_le _ _

/-- If every slot is `Full`, the live values are in bijection with the
slots. -/
theorem filterMap_full_length_eq {V : Type} :
    ∀ (l : List (Entry V)), (∀ j k, l.get? j = some (Entry.Empty k) → False) →
    (l.filterMap Entry.full).length = l.length := by
  intro l
  induction l with
  | nil => intro _; rfl
  | cons e tl ih =>
    intro h
    cases e with
    | Empty k => exact absurd rfl (h 0 k)
    | Full v =>
      simp only [List.filterMap_cons, Entry.full, List.length_cons]
      rw [ih (fun j k hj => h (j + 1) k hj)]

/-- A store with an `Empty` slot has strictly fewer live values than
slots. -/
theorem filterMap_full_length_lt {V : Type} :
    ∀ (l : List (Entry V)) (i k : Nat), l.get? i = some (Entry.Empty k) →
    (l.filterMap Entry.full).length < l.length := by
  intro l
  induction l with
  | nil => intro i k h; simp at h
  | cons e tl ih =>
    intro i k h
    cases i with
    | zero =>
      injection h with h
      subst h
      simp only [List.filterMap_cons, Entry.full, List.length_cons]
      exact Nat.lt_succ_of_le (filterMap_full_length_le tl)
    | succ j =>
      have hlt := ih j k h
      cases e with
      | Empty m =>
        simp only [List.filterMap_cons, Entry.full, List.length_cons]
        exact Nat.lt_succ_of_lt hlt
      | Full v =>
        simp only [List.filterMap_cons, Entry.full, List.length_cons]
        exact Nat.succ_lt_succ hlt

/-- Filling an `Empty` slot adds exactly the new value to the live
values (up to permutation). -/
theorem perm_set_full {V : Type} :
    ∀ (l : List (Entry V)) (i k : Nat) (v : V),
    l.get? i = some (Entry.Empty k) →
    List.Perm ((l.set i (Entry.Full v)).filterMap Entry.full)
      (v :: l.filterMap Entry.full) := by
  intro l
  induction l with
  | nil => intro i k v h; simp at h
  | cons e tl ih =>
    intro i k v h
    cases i with
    | zero =>
      injection h with h
      subst h
      simp only [List.set_cons_zero, List.filterMap_cons, Entry.full]
      exact List.Perm.refl _
    | succ j =>
      simp only [List.set_cons_succ, List.filterMap_cons]
      cases e with
      | Empty m =>
        simpa [Entry.full] using ih j k v h
      | Full w =>
        simp only [Entry.full]
        exact ((ih j k v h).cons w).trans (List.Perm.swap v w _)

/-- Emptying a `Full` slot removes exactly its value from the live
values (up to permutation). -/
theorem perm_set_empty {V : Type} :
    ∀ (l : List (Entry V)) (i k : Nat) (v : V),
    l.get? i = some (Entry.Full v) →
    List.Perm (l.filterMap Entry.full)
      (v :: (l.set i (Entry.Empty k)).filterMap Entry.full) := by
  intro l
  induction l with
  | nil => intro i k v h; simp at h
  | cons e tl ih =>
    intro i k v h
    cases i with
    | zero =>
      injection h with h
      subst h
      simp only [List.set_cons_zero, List.filterMap_cons, Entry.full]
      exact List.Perm.refl _
    | succ j =>
      simp only [List.set_cons_succ, List.filterMap_cons]
      cases e with
      | Empty m =>
        simpa [Entry.full] using ih j k v h
      | Full w =>
        simp only [Entry.full]
        exact (List.Perm.cons w (ih j k v h)).trans (List.Perm.swap v w _)

/-! ## Free-list chain lemmas -/

theorem FreeChain.eq_nil {V : Type} {data : List (Entry V)} {is : List Nat}
    (h : FreeChain data data.length is) : is = [] := by
  cases h with
  | nil => rfl
  | cons hget _ =>
    have := (List.get?_eq_some.mp hget).fst
    exact absurd this (lt_irrefl _)

theorem FreeChain.cons_of_ne {V : Type} {data : List (Entry V)} {i : Nat}
    {is : List Nat} (h : FreeChain data i is) (hne : i ≠ data.length) :
    ∃ n is', is = i :: is' ∧ data.get? i = some (Entry.Empty n) ∧
      FreeChain data n is' := by
  cases h with
  | nil => exact absurd rfl hne
  | cons hget hrest => exact ⟨_, _, rfl, hget, hrest⟩

theorem FreeChain.mem_empty {V : Type} {data : List (Entry V)} {i : Nat}
    {is : List Nat} (h : FreeChain data i is) :
    ∀ j ∈ is, ∃ k, data.get? j = some (Entry.Empty k) := by
  induction h with
  | nil => intro j hj; exact absurd hj (List.not_mem_nil j)
  | cons hget _ ih =>
    intro j hj
    rcases List.mem_cons.mp hj with rfl | hj
    · exact ⟨_, hget⟩
    · exact ih j hj

/-- A chain avoiding index `j` survives overwriting slot `j`. -/
theorem FreeChain.set_of_not_mem {V : Type} {data : List (Entry V)} {i : Nat}
    {is : List Nat} (h : FreeChain data i is) (j : Nat) (e : Entry V)
    (hj : j ∉ is) : FreeChain (data.set j e) i is := by
  induction h with
  | nil =>
    have := @FreeChain.nil V (data.set j e)
    rwa [List.length_set] at this
  | cons hget hrest ih =>
    rename_i i' n is'
    have hij : j ≠ i' := fun hh => hj (hh ▸ List.mem_cons_self i' is')
    refine FreeChain.cons ?_ (ih (fun hh => hj (List.mem_cons_of_mem _ hh)))
    rw [List.get?_set_ne _ _ hij]
    exact hget

theorem FreeChain.lt_length {V : Type} {data : List (Entry V)} {i : Nat}
    {is : List Nat} (h : FreeChain data i is) :
    ∀ j ∈ is, j < data.length := by
  intro j hj
  obtain ⟨k, hk⟩ := h.mem_empty j hj
  exact (List.get?_eq_some.mp hk).fst

/-! ## Invariant preservation -/

/-- `check` preserves the store invariant: the new ticket joins the
outstanding ones, the size genuinely increments, the stored values gain
exactly `v`, and the capacity is untouched whenever there was spare
capacity. -/
theorem check_preserves {V : Type} {cc : CoatCheck V} {ts : List Ticket}
    {v : V} {t : Ticket} {cc' : CoatCheck V}
    (inv : StoreInv cc ts) (h : cc.check v = some (t, cc')) :
    StoreInv cc' (t :: ts) ∧ cc'.size = cc.size + 1 ∧ cc'.tag = cc.tag ∧
    cc'.storedMS = v ::ₘ cc.storedMS ∧
    (cc.size < cc.dataCap → cc'.dataCap = cc.dataCap) := by
  obtain ⟨ht, hcase⟩ := CoatCheck.check_cases h
  subst ht
  obtain ⟨is, hch, hnd, hcomp⟩ := inv.free_chain
  rcases hcase with ⟨h1, h2, hcc⟩ | ⟨k, h1, hg, hcc⟩ <;> subst hcc
  · -- push branch: the free list is empty, every slot is Full
    rw [h1] at hch
    have his : is = [] := hch.eq_nil
    subst his
    have hnoempty : ∀ j k, cc.data.get? j = some (Entry.Empty k) → False := by
      intro j k hj
      exact absurd (hcomp j k hj) (List.not_mem_nil j)
    have hsize_len : cc.size = cc.data.length := by
      rw [inv.size_eq, CoatCheck.storedList]
      exact filterMap_full_length_eq cc.data hnoempty
    have hmod : (cc.size + 1) % USIZE = cc.size + 1 :=
      Nat.mod_eq_of_lt (by omega)
    have hfullget : (cc.data ++ [Entry.Full v]).get? cc.next_free
        = some (Entry.Full v) := by
      rw [h1]
      exact List.get?_concat_length _ _
    refine ⟨⟨?_, ?_, ?_, ?_, ?_, ?_, ?_, ?_⟩, hmod, rfl, ?_, ?_⟩
    · simpa using (by omega : cc.data.length + 1 < USIZE)
    · simp only [List.length_append, List.length_cons, List.length_nil]
      unfold vecPushCap
      split <;> omega
    · have hse : cc.size = (List.filterMap Entry.full cc.data).length := by
        have := inv.size_eq
        simpa [CoatCheck.storedList] using this
      simp only [CoatCheck.storedList, filterMap_full_append,
        List.length_append, List.length_cons, List.length_nil]
      rw [hmod]
      omega
    · refine ⟨[], ?_, List.nodup_nil, ?_⟩
      · have hlen : (cc.data ++ [Entry.Full v]).length = cc.next_free + 1 := by
          simp [h1]
        rw [show cc.next_free + 1 = (cc.data ++ [Entry.Full v]).length from hlen.symm]
        exact FreeChain.nil
      · intro j m hj
        by_cases hjl : j < cc.data.length
        · rw [List.get?_append hjl] at hj
          exact (hnoempty j m hj).elim
        · rw [List.get?_append_right (le_of_not_lt hjl)] at hj
          cases hd : j - cc.data.length with
          | zero => rw [hd] at hj; simp at hj
          | succ m2 => rw [hd] at hj; simp at hj
    · simp only [List.length_cons, inv.tickets_count, hmod]
    · intro t' ht'
      rcases List.mem_cons.mp ht' with rfl | ht'
      · rfl
      · exact inv.tickets_tag t' ht'
    · intro t' ht'
      rcases List.mem_cons.mp ht' with rfl | ht'
      · exact ⟨v, hfullget⟩
      · obtain ⟨w, hw⟩ := inv.tickets_full t' ht'
        have hlt := (List.get?_eq_some.mp hw).fst
        exact ⟨w, by rw [List.get?_append hlt]; exact hw⟩
    · simp only [List.map_cons]
      refine List.nodup_cons.mpr ⟨?_, inv.tickets_nodup⟩
      intro hmem
      obtain ⟨t', ht', hidx⟩ := List.mem_map.mp hmem
      obtain ⟨w, hw⟩ := inv.tickets_full t' ht'
      have hlt := (List.get?_eq_some.mp hw).fst
      rw [hidx] at hlt
      omega
    · simp only [CoatCheck.storedMS, CoatCheck.storedList, filterMap_full_append]
      rw [Multiset.cons_coe]
      exact Multiset.coe_eq_coe.mpr (List.perm_append_singleton _ _)
    · intro hcap
      have hlc : cc.data.length < cc.dataCap := hsize_len ▸ hcap
      simp [vecPushCap, hlc]
  · -- reuse branch: the head of the free list is overwritten
    obtain ⟨n, is', his, hget, hrest⟩ := FreeChain.cons_of_ne hch h1
    have hkn : n = k := by
      rw [hget] at hg
      exact Entry.Empty.inj (Option.some.inj hg)
    subst hkn
    subst his
    have hnfnotmem : cc.next_free ∉ is' := (List.nodup_cons.mp hnd).1
    have hnd' : is'.Nodup := (List.nodup_cons.mp hnd).2
    have hnf_lt : cc.next_free < cc.data.length := (List.get?_eq_some.mp hg).fst
    have hsize_lt : cc.size < cc.data.length := by
      rw [inv.size_eq, CoatCheck.storedList]
      exact filterMap_full_length_lt cc.data cc.next_free n hg
    have hmod : (cc.size + 1) % USIZE = cc.size + 1 :=
      Nat.mod_eq_of_lt (by have := inv.len_lt; omega)
    have hperm := perm_set_full cc.data cc.next_free n v hg
    have hfullget : (cc.data.set cc.next_free (Entry.Full v)).get? cc.next_free
        = some (Entry.Full v) := List.get?_set_eq_of_lt _ hnf_lt
    refine ⟨⟨?_, ?_, ?_, ?_, ?_, ?_, ?_, ?_⟩, hmod, rfl, ?_, ?_⟩
    · simp only [List.length_set]
      exact inv.len_lt
    · simp only [List.length_set]
      exact inv.cap_ge
    · have hpl := hperm.length_eq
      simp only [List.length_cons] at hpl
      simp only [CoatCheck.storedList] at hpl ⊢
      rw [hmod, hpl]
      rw [inv.size_eq, CoatCheck.storedList]
    · refine ⟨is', hrest.set_of_not_mem _ _ hnfnotmem, hnd', ?_⟩
      intro j m hj
      by_cases hjn : j = cc.next_free
      · subst hjn
        rw [hfullget] at hj
        simp at hj
      · rw [List.get?_set_ne _ _ (fun hh => hjn hh.symm)] at hj
        have := hcomp j m hj
        rcases List.mem_cons.mp this with hh | hh
        · exact absurd hh hjn
        · exact hh
    · simp only [List.length_cons, inv.tickets_count, hmod]
    · intro t' ht'
      rcases List.mem_cons.mp ht' with rfl | ht'
      · rfl
      · exact inv.tickets_tag t' ht'
    · intro t' ht'
      rcases List.mem_cons.mp ht' with rfl | ht'
      · exact ⟨v, hfullget⟩
      · obtain ⟨w, hw⟩ := inv.tickets_full t' ht'
        have hne : t'.index ≠ cc.next_free := by
          intro hh
          rw [hh, hg] at hw
          simp at hw
        exact ⟨w, by rw [List.get?_set_ne _ _ (fun hh => hne hh.symm)]; exact hw⟩
    · simp only [List.map_cons]
      refine List.nodup_cons.mpr ⟨?_, inv.tickets_nodup⟩
      intro hmem
      obtain ⟨t', ht', hidx⟩ := List.mem_map.mp hmem
      obtain ⟨w, hw⟩ := inv.tickets_full t' ht'
      rw [hidx, hg] at hw
      simp at hw
    · simp only [CoatCheck.storedMS, CoatCheck.storedList]
      rw [Multiset.cons_coe]
      exact Multiset.coe_eq_coe.mpr hperm
    · intro _
      rfl

/-- A successful `claim` of an outstanding ticket preserves the store
invariant: the ticket leaves the outstanding set, the size genuinely
decrements, and the stored values lose exactly the claimed value. -/
theorem claim_ok_preserves {V : Type} {cc : CoatCheck V} {ts : List Ticket}
    {t : Ticket} {v : V} {cc' : CoatCheck V}
    (inv : StoreInv cc ts) (hmem : t ∈ ts)
    (h : cc.claim t = some (Except.ok v, cc')) :
    StoreInv cc' (ts.erase t) ∧ cc'.size = cc.size - 1 ∧ 0 < cc.size ∧
    cc'.tag = cc.tag ∧ cc.storedMS = v ::ₘ cc'.storedMS ∧
    cc'.dataCap = cc.dataCap := by
  rcases CoatCheck.claim_cases h with ⟨_, hr, _⟩ | ⟨w, htag, hg, hr, hcc⟩
  · exact absurd hr (by simp)
  · have hvw : v = w := Except.ok.inj hr
    subst hvw
    subst hcc
    have hidx_lt : t.index < cc.data.length := (List.get?_eq_some.mp hg).fst
    have hperm := perm_set_empty cc.data t.index cc.next_free v hg
    have hpl := hperm.length_eq
    simp only [List.length_cons] at hpl
    have hsize_pos : 0 < cc.size := by
      rw [inv.size_eq, CoatCheck.storedList]
      omega
    have hsize_lt : cc.size < USIZE := by
      have h1 := inv.size_eq
      have h2 := filterMap_full_length_le cc.data
      have h3 := inv.len_lt
      simp only [CoatCheck.storedList] at h1
      omega
    have husize : usizeSub cc.size 1 = cc.size - 1 := usizeSub_one hsize_pos hsize_lt
    have tsN : ts.Nodup := inv.tickets_nodup.of_map
    have hinj := List.inj_on_of_nodup_map inv.tickets_nodup
    obtain ⟨is, hch, hnd, hcomp⟩ := inv.free_chain
    have hnotmem : t.index ∉ is := by
      intro hmem2
      obtain ⟨k, hk⟩ := hch.mem_empty t.index hmem2
      rw [hg] at hk
      simp at hk
    have hemptyget : (cc.data.set t.index (Entry.Empty cc.next_free)).get? t.index
        = some (Entry.Empty cc.next_free) := List.get?_set_eq_of_lt _ hidx_lt
    refine ⟨⟨?_, ?_, ?_, ?_, ?_, ?_, ?_, ?_⟩, husize, hsize_pos, rfl, ?_, rfl⟩
    · simp only [List.length_set]
      exact inv.len_lt
    · simp only [List.length_set]
      exact inv.cap_ge
    · have hse : cc.size = (List.filterMap Entry.full cc.data).length := by
        have := inv.size_eq
        simpa [CoatCheck.storedList] using this
      simp only [CoatCheck.storedList]
      rw [husize]
      omega
    · refine ⟨t.index :: is, FreeChain.cons hemptyget (hch.set_of_not_mem _ _ hnotmem),
        List.nodup_cons.mpr ⟨hnotmem, hnd⟩, ?_⟩
      intro j m hj
      by_cases hjn : j = t.index
      · subst hjn
        exact List.mem_cons_self _ _
      · rw [List.get?_set_ne _ _ (fun hh => hjn hh.symm)] at hj
        exact List.mem_cons_of_mem _ (hcomp j m hj)
    · rw [List.length_erase_of_mem hmem, inv.tickets_count, husize]
    · intro t' ht'
      exact inv.tickets_tag t' (List.mem_of_mem_erase ht')
    · intro t' ht'
      obtain ⟨hne, ht'mem⟩ := (tsN.mem_erase_iff).mp ht'
      obtain ⟨w2, hw2⟩ := inv.tickets_full t' ht'mem
      have hne_idx : t'.index ≠ t.index := by
        intro hh
        exact hne (hinj ht'mem hmem hh)
      exact ⟨w2, by rw [List.get?_set_ne _ _ (fun hh => hne_idx hh.symm)]; exact hw2⟩
    · exact inv.tickets_nodup.sublist (List.Sublist.map _ (List.erase_sublist t ts))
    · simp only [CoatCheck.storedMS, CoatCheck.storedList]
      rw [Multiset.cons_coe]
      exact Multiset.coe_eq_coe.mpr hperm

/-- In an invariant state, `check` succeeds whenever the incremented
size still fits `usize`. -/
theorem check_succeeds {V : Type} {cc : CoatCheck V} {ts : List Ticket}
    (inv : StoreInv cc ts) (v : V) (hs : cc.size + 1 < USIZE) :
    ∃ t cc', cc.check v = some (t, cc') := by
  obtain ⟨is, hch, _, hcomp⟩ := inv.free_chain
  by_cases h1 : cc.next_free = cc.data.length
  · rw [h1] at hch
    have his := hch.eq_nil
    subst his
    have hnoempty : ∀ j k, cc.data.get? j = some (Entry.Empty k) → False := by
      intro j k hj
      exact absurd (hcomp j k hj) (List.not_mem_nil j)
    have hsize_len : cc.size = cc.data.length := by
      rw [inv.size_eq, CoatCheck.storedList]
      exact filterMap_full_length_eq cc.data hnoempty
    exact ⟨_, _, CoatCheck.check_push v h1 (by omega)⟩
  · obtain ⟨n, is', _, hget, _⟩ := FreeChain.cons_of_ne hch h1
    exact ⟨_, _, CoatCheck.check_reuse v h1 hget⟩

/-- Every reachable state satisfies the store invariant. -/
theorem reach_inv {V : Type} {cc : CoatCheck V} {ts : List Ticket}
    (h : Reach cc ts) : StoreInv cc ts := by
  induction h with
  | init capacity randomTag =>
    refine ⟨by show (0 : Nat) < USIZE; decide, Nat.zero_le _, rfl,
      ⟨[], FreeChain.nil, List.nodup_nil, ?_⟩, rfl, ?_, ?_, List.nodup_nil⟩
    · intro j k hj
      simp [CoatCheck.with_capacity] at hj
    · intro t' ht'
      exact absurd ht' (List.not_mem_nil _)
    · intro t' ht'
      exact absurd ht' (List.not_mem_nil _)
  | check_step hr hc ih => exact (check_preserves ih hc).1
  | claim_ok hr hmem hc ih => exact (claim_ok_preserves ih hmem hc).1
  | claim_err hr hc ih =>
    rcases CoatCheck.claim_cases hc with ⟨_, _, hcc⟩ | ⟨w, _, _, hr2, _⟩
    · rwa [hcc]
    · exact absurd hr2 (by simp)

/-! ## Claim C4: the structural invariant of reachable states -/

/-- C4: in every store state reachable from construction by `check` and
`claim` operations, the live count equals the number of `Full` slots,
which equals the number of outstanding unclaimed tickets, and following
the `next_free` links from the store's `next_free` field visits each
currently `Empty` slot exactly once before reaching the sentinel index
(the storage length). -/
theorem store_invariant {V : Type} (cc : CoatCheck V) (ts : List Ticket)
    (h : Reach cc ts) :
    cc.len = cc.storedList.length ∧ cc.len = ts.length ∧
    ∃ is, FreeChain cc.data cc.next_free is ∧ is.Nodup ∧
      (∀ j k, cc.data.get? j = some (Entry.Empty k) → j ∈ is) := by
  have inv := reach_inv h
  exact ⟨inv.size_eq, inv.tickets_count.symm, inv.free_chain⟩

/-- Witness for C4 at the initial state of a freshly constructed store. -/
theorem store_invariant_witness :
    (CoatCheck.with_capacity 0 0 : CoatCheck Nat).len
        = (CoatCheck.with_capacity 0 0 : CoatCheck Nat).storedList.length ∧
    (CoatCheck.with_capacity 0 0 : CoatCheck Nat).len = ([] : List Ticket).length ∧
    ∃ is, FreeChain (CoatCheck.with_capacity 0 0 : CoatCheck Nat).data
        (CoatCheck.with_capacity 0 0 : CoatCheck Nat).next_free is ∧ is.Nodup ∧
      (∀ j k, (CoatCheck.with_capacity 0 0 : CoatCheck Nat).data.get? j
          = some (Entry.Empty k) → j ∈ is) :=
  store_invariant _ [] (Reach.init 0 0)

/-- Running a sequence of `check`s (the consumed prefix of a `Tickets`
iterator) from an invariant state: every step succeeds, one ticket per
item is returned, the size grows by exactly the number of items, the
stored values gain exactly the items, and the capacity never changes as
long as the final size fits the initial spare capacity. -/
theorem ticketsConsume_run {V : Type} :
    ∀ (vs : List V) (cc : CoatCheck V) (ts : List Ticket),
    StoreInv cc ts → cc.size + vs.length < USIZE →
    ∃ out ccf tsf, cc.ticketsConsume vs = some (out, ccf) ∧ StoreInv ccf tsf ∧
      out.length = vs.length ∧ ccf.size = cc.size + vs.length ∧
      ccf.tag = cc.tag ∧
      ccf.storedMS = cc.storedMS + (vs : Multiset V) ∧
      (cc.size + vs.length ≤ cc.dataCap → ccf.dataCap = cc.dataCap) := by
  intro vs
  induction vs with
  | nil =>
    intro cc ts inv _
    exact ⟨[], cc, ts, rfl, inv, rfl, by simp, rfl, by simp, fun _ => rfl⟩
  | cons v rest ih =>
    intro cc ts inv hs
    simp only [List.length_cons] at hs
    obtain ⟨t, cc1, hc⟩ := check_succeeds inv v (by omega)
    obtain ⟨inv1, hsz1, htag1, hms1, hcap1⟩ := check_preserves inv hc
    obtain ⟨out, ccf, tsf, hrun, invf, hlen, hsz, htag, hms, hcap⟩ :=
      ih cc1 (t :: ts) inv1 (by rw [hsz1]; omega)
    refine ⟨t :: out, ccf, tsf, ?_, invf, ?_, ?_, ?_, ?_, ?_⟩
    · simp only [CoatCheck.ticketsConsume, hc, hrun]
    · simp [hlen]
    · rw [hsz, hsz1]
      simp only [List.length_cons]
      omega
    · rw [htag, htag1]
    · rw [hms, hms1, ← Multiset.cons_coe, Multiset.cons_add, Multiset.add_cons]
    · intro hle
      simp only [List.length_cons] at hle
      have hlt : cc.size < cc.dataCap := by omega
      have hc1 := hcap1 hlt
      rw [hcap (by rw [hsz1, hc1]; omega), hc1]

/-- `reserve` and `reserve_exact` touch only the capacity. -/
theorem reserve_fields {V : Type} (cc : CoatCheck V) (n : Nat) :
    (cc.reserve n).tag = cc.tag ∧ (cc.reserve n).data = cc.data ∧
    (cc.reserve n).size = cc.size ∧ (cc.reserve n).next_free = cc.next_free := by
  simp only [CoatCheck.reserve]
  split <;> exact ⟨rfl, rfl, rfl, rfl⟩

/-- The two reservation operations coincide in the model (`Vec::reserve`
and `Vec::reserve_exact` share the guarantee the library relies on). -/
theorem reserve_exact_eq_reserve {V : Type} (cc : CoatCheck V) (n : Nat) :
    cc.reserve_exact n = cc.reserve n := by
  simp only [CoatCheck.reserve_exact, CoatCheck.reserve, vecReserveExact, vecReserve]

/-- After `reserve additional`, the capacity covers the live count plus
`additional`, and it never shrinks. -/
theorem reserve_cap {V : Type} {cc : CoatCheck V} {ts : List Ticket}
    (inv : StoreInv cc ts) (n : Nat) :
    cc.size + n ≤ (cc.reserve n).dataCap ∧ cc.dataCap ≤ (cc.reserve n).dataCap := by
  have hsize_le : cc.size ≤ cc.data.length := by
    have h1 := inv.size_eq
    have h2 := filterMap_full_length_le cc.data
    simp only [CoatCheck.storedList] at h1
    omega
  have husize : usizeSub cc.data.length cc.size = cc.data.length - cc.size :=
    usizeSub_eq_sub hsize_le inv.len_lt
  have hcap := inv.cap_ge
  simp only [CoatCheck.reserve, CoatCheck.len, husize, vecReserve]
  by_cases h1 : cc.data.length - cc.size < n
  · rw [if_pos h1]
    by_cases h2 : cc.dataCap < cc.data.length + (n - (cc.data.length - cc.size))
    · rw [if_pos h2]
      constructor <;> (dsimp only; omega)
    · rw [if_neg h2]
      constructor <;> (dsimp only; omega)
  · rw [if_neg h1]
    constructor <;> (dsimp only; omega)

/-- `reserve` preserves the store invariant. -/
theorem reserve_inv {V : Type} {cc : CoatCheck V} {ts : List Ticket}
    (inv : StoreInv cc ts) (n : Nat) : StoreInv (cc.reserve n) ts := by
  obtain ⟨htag, hdata, hsize, hnf⟩ := reserve_fields cc n
  have hcap := (reserve_cap inv n).2
  refine ⟨?_, ?_, ?_, ?_, ?_, ?_, ?_, ?_⟩
  · rw [hdata]; exact inv.len_lt
  · rw [hdata]; exact le_trans inv.cap_ge hcap
  · rw [hsize]
    simp only [CoatCheck.storedList]
    rw [hdata]
    exact inv.size_eq
  · obtain ⟨is, hch, hnd, hcomp⟩ := inv.free_chain
    rw [hdata, hnf]
    exact ⟨is, hch, hnd, hcomp⟩
  · rw [hsize]; exact inv.tickets_count
  · rw [htag]; exact inv.tickets_tag
  · intro t' ht'
    rw [hdata]
    exact inv.tickets_full t' ht'
  · exact inv.tickets_nodup

/-! ## Claim C7: `reserve` / `reserve_exact` -/

/-- C7: after `reserve additional` (or `reserve_exact`, which requests
the same guarantee) on a reachable store, at least `additional` further
`check` operations can be performed before the backing storage must grow
(the capacity stays put through any ≤ `additional` further check-ins),
because the reservation is computed against spare slots
(`data.length - len()`): if the spare-slot count already meets
`additional` nothing is reserved, otherwise only the shortfall is
requested from the `Vec`. -/
theorem reserve_spec {V : Type} (cc : CoatCheck V) (ts : List Ticket)
    (additional : Nat) (h : Reach cc ts)
    (hadd : cc.size + additional < USIZE) :
    (additional ≤ cc.data.length - cc.size → cc.reserve additional = cc) ∧
    (cc.data.length - cc.size < additional →
      (cc.reserve additional).capacity
        = vecReserve cc.data.length cc.dataCap
            (additional - (cc.data.length - cc.size))) ∧
    cc.reserve_exact additional = cc.reserve additional ∧
    (∀ vs : List V, vs.length ≤ additional →
      ∃ out ccf, (cc.reserve additional).ticketsConsume vs = some (out, ccf) ∧
        ccf.capacity = (cc.reserve additional).capacity ∧
        ccf.len = cc.len + vs.length) := by
  have inv := reach_inv h
  have hsize_le : cc.size ≤ cc.data.length := by
    have h1 := inv.size_eq
    have h2 := filterMap_full_length_le cc.data
    simp only [CoatCheck.storedList] at h1
    omega
  have husize : usizeSub cc.data.length cc.size = cc.data.length - cc.size :=
    usizeSub_eq_sub hsize_le inv.len_lt
  refine ⟨?_, ?_, reserve_exact_eq_reserve cc additional, ?_⟩
  · intro hle
    simp only [CoatCheck.reserve, CoatCheck.len, husize]
    rw [if_neg (by omega)]
  · intro hlt
    simp only [CoatCheck.reserve, CoatCheck.len, husize]
    rw [if_pos hlt]
    rfl
  · intro vs hvs
    obtain ⟨htagR, hdataR, hsizeR, hnfR⟩ := reserve_fields cc additional
    have invR := reserve_inv inv additional
    have hcapR := (reserve_cap inv additional).1
    obtain ⟨out, ccf, tsf, hrun, invf, hlen, hsz, htag, hms, hcap⟩ :=
      ticketsConsume_run vs (cc.reserve additional) ts invR
        (by rw [hsizeR]; omega)
    refine ⟨out, ccf, hrun, ?_, ?_⟩
    · simp only [CoatCheck.capacity]
      exact hcap (by rw [hsizeR]; omega)
    · simp only [CoatCheck.len]
      rw [hsz, hsizeR]

/-- Witness for C7 at a concrete input: reserving room for two more
check-ins on a fresh store, then performing two, leaves the capacity
untouched. -/
theorem reserve_spec_witness :
    ((CoatCheck.with_capacity 0 0 : CoatCheck Nat).size + 2 < USIZE ∧
     ([5, 6] : List Nat).length ≤ 2) ∧
    ∃ out ccf,
      ((CoatCheck.with_capacity 0 0 : CoatCheck Nat).reserve 2).ticketsConsume [5, 6]
        = some (out, ccf) ∧
      ccf.capacity = ((CoatCheck.with_capacity 0 0 : CoatCheck Nat).reserve 2).capacity ∧
      ccf.len = (CoatCheck.with_capacity 0 0 : CoatCheck Nat).len + ([5, 6] : List Nat).length :=
  ⟨⟨by decide, by decide⟩,
    (reserve_spec (CoatCheck.with_capacity 0 0) [] 2 (Reach.init 0 0)
      (by decide)).2.2.2 [5, 6] (by decide)⟩

/-! ## Claim C9: `check_all` is lazy -/

/-- C9: consuming `k` tickets of the iterator returned by
`check_all(items)` checks in exactly the first `min k N` items
(`N = items.length`): it yields that many tickets, increases `len()` by
that amount, and adds exactly the consumed prefix to the stored values —
the unconsumed tail is never stored.  Taking `k = N` is full
consumption: exactly `N` tickets and `len()` increased by `N`. -/
theorem check_all_lazy {V : Type} (cc : CoatCheck V) (ts : List Ticket)
    (items : List V) (k : Nat) (h : Reach cc ts)
    (hN : cc.size + items.length < USIZE) :
    ∃ out ccf,
      ((cc.check_all items).1).ticketsConsume ((cc.check_all items).2.take k)
        = some (out, ccf) ∧
      out.length = min k items.length ∧
      ccf.len = cc.len + min k items.length ∧
      ccf.storedMS = cc.storedMS + ((items.take k : List V) : Multiset V) := by
  have inv := reach_inv h
  obtain ⟨htagR, hdataR, hsizeR, hnfR⟩ := reserve_fields cc items.length
  have invR := reserve_inv inv items.length
  have htake : (items.take k).length = min k items.length := List.length_take k items
  obtain ⟨out, ccf, tsf, hrun, invf, hlen, hsz, htag, hms, hcap⟩ :=
    ticketsConsume_run (items.take k) (cc.reserve items.length) ts invR
      (by rw [hsizeR, htake]; omega)
  have hmsR : (cc.reserve items.length).storedMS = cc.storedMS := by
    simp only [CoatCheck.storedMS, CoatCheck.storedList, hdataR]
  refine ⟨out, ccf, ?_, ?_, ?_, ?_⟩
  · simpa only [CoatCheck.check_all] using hrun
  · rw [hlen, htake]
  · simp only [CoatCheck.len]
    rw [hsz, hsizeR, htake]
  · rw [hms, hmsR]

/-- Witness for C9 at a concrete input: partially consuming two of three
items stores exactly the first two. -/
theorem check_all_lazy_witness :
    ((CoatCheck.with_capacity 0 0 : CoatCheck Nat).size + ([5, 6, 7] : List Nat).length
        < USIZE) ∧
    ∃ out ccf,
      (((CoatCheck.with_capacity 0 0 : CoatCheck Nat).check_all [5, 6, 7]).1).ticketsConsume
          (((CoatCheck.with_capacity 0 0 : CoatCheck Nat).check_all [5, 6, 7]).2.take 2)
        = some (out, ccf) ∧
      out.length = min 2 ([5, 6, 7] : List Nat).length ∧
      ccf.len = (CoatCheck.with_capacity 0 0 : CoatCheck Nat).len
          + min 2 ([5, 6, 7] : List Nat).length ∧
      ccf.storedMS = (CoatCheck.with_capacity 0 0 : CoatCheck Nat).storedMS
          + ((([5, 6, 7] : List Nat).take 2 : List Nat) : Multiset Nat) :=
  ⟨by decide,
    check_all_lazy (CoatCheck.with_capacity 0 0) [] [5, 6, 7] 2 (Reach.init 0 0)
      (by decide)⟩

/-! ## Claim C8: iteration -/

theorem full_ref_eq_full {V : Type} :
    (Entry.full_ref : Entry V → Option V) = Entry.full :=
  funext fun e => by cases e <;> rfl

theorem full_mut_eq_full {V : Type} :
    (Entry.full_mut : Entry V → Option V) = Entry.full :=
  funext fun e => by cases e <;> rfl

/-- The live values of the storage are exactly the result of scanning
the slot indices in increasing order and keeping the `Full` ones. -/
theorem filterMap_full_eq_range {V : Type} :
    ∀ l : List (Entry V),
    l.filterMap Entry.full
      = (List.range l.length).filterMap (fun i => (l.get? i).bind Entry.full) := by
  intro l
  induction l with
  | nil => simp
  | cons e tl ih =>
    rw [List.length_cons, List.range_succ_eq_map]
    cases e with
    | Full v =>
      simp only [List.filterMap_cons, Entry.full, List.filterMap_map, Function.comp_def,
        List.get?_cons_succ, List.get?_cons_zero, Option.some_bind]
      rw [ih]
      rfl
    | Empty k =>
      simp only [List.filterMap_cons, Entry.full, List.filterMap_map, Function.comp_def,
        List.get?_cons_succ, List.get?_cons_zero, Option.some_bind]
      rw [ih]
      rfl

/-- C8: on a reachable store, `iter`, `iter_mut` and `into_iter` all
yield exactly the currently live values, in strictly increasing
slot-index order (the `Full` entries of the index scan `0, 1, …`,
skipping `Empty` slots), the yielded sequence has length exactly
`len()`, and each iterator's reported exact size equals `len()` (and
hence the number of items it yields). -/
theorem iter_spec {V : Type} (cc : CoatCheck V) (ts : List Ticket)
    (h : Reach cc ts) :
    (cc.iter).toList
      = (List.range cc.data.length).filterMap
          (fun i => (cc.data.get? i).bind Entry.full) ∧
    (cc.iter_mut).toList = (cc.iter).toList ∧
    (cc.into_iter).toList = (cc.iter).toList ∧
    (cc.iter).toList.length = cc.len ∧
    (cc.iter).reportedLen = cc.len ∧
    (cc.iter_mut).reportedLen = cc.len ∧
    (cc.into_iter).reportedLen = cc.len := by
  have inv := reach_inv h
  have hsl : cc.size = (cc.data.filterMap Entry.full).length := by
    have := inv.size_eq
    simpa [CoatCheck.storedList] using this
  have hiter : (cc.iter).toList = cc.data.filterMap Entry.full := by
    simp only [CoatCheck.iter, GenericIter.toList, full_ref_eq_full, CoatCheck.len]
    rw [hsl]
    exact List.take_length _
  have hiter_mut : (cc.iter_mut).toList = cc.data.filterMap Entry.full := by
    simp only [CoatCheck.iter_mut, GenericIter.toList, full_mut_eq_full, CoatCheck.len]
    rw [hsl]
    exact List.take_length _
  have hinto : (cc.into_iter).toList = cc.data.filterMap Entry.full := by
    simp only [CoatCheck.into_iter, GenericIter.toList, CoatCheck.len]
    rw [hsl]
    exact List.take_length _
  refine ⟨?_, ?_, ?_, ?_, rfl, rfl, rfl⟩
  · rw [hiter]
    exact filterMap_full_eq_range cc.data
  · rw [hiter, hiter_mut]
  · rw [hiter, hinto]
  · rw [hiter, ← hsl]
    rfl

/-- Witness for C8 at a concrete reachable store holding one value. -/
theorem iter_spec_witness :
    ((⟨0, [Entry.Full 5], 1, 1, 1⟩ : CoatCheck Nat).iter).toList
      = (List.range (⟨0, [Entry.Full 5], 1, 1, 1⟩ : CoatCheck Nat).data.length).filterMap
          (fun i => ((⟨0, [Entry.Full 5], 1, 1, 1⟩ : CoatCheck Nat).data.get? i).bind
            Entry.full) ∧
    ((⟨0, [Entry.Full 5], 1, 1, 1⟩ : CoatCheck Nat).iter_mut).toList
      = ((⟨0, [Entry.Full 5], 1, 1, 1⟩ : CoatCheck Nat).iter).toList ∧
    ((⟨0, [Entry.Full 5], 1, 1, 1⟩ : CoatCheck Nat).into_iter).toList
      = ((⟨0, [Entry.Full 5], 1, 1, 1⟩ : CoatCheck Nat).iter).toList ∧
    ((⟨0, [Entry.Full 5], 1, 1, 1⟩ : CoatCheck Nat).iter).toList.length
      = (⟨0, [Entry.Full 5], 1, 1, 1⟩ : CoatCheck Nat).len ∧
    ((⟨0, [Entry.Full 5], 1, 1, 1⟩ : CoatCheck Nat).iter).reportedLen
      = (⟨0, [Entry.Full 5], 1, 1, 1⟩ : CoatCheck Nat).len ∧
    ((⟨0, [Entry.Full 5], 1, 1, 1⟩ : CoatCheck Nat).iter_mut).reportedLen
      = (⟨0, [Entry.Full 5], 1, 1, 1⟩ : CoatCheck Nat).len ∧
    ((⟨0, [Entry.Full 5], 1, 1, 1⟩ : CoatCheck Nat).into_iter).reportedLen
      = (⟨0, [Entry.Full 5], 1, 1, 1⟩ : CoatCheck Nat).len :=
  iter_spec _ [⟨0, 0⟩]
    (@Reach.check_step Nat (CoatCheck.with_capacity 0 0) [] 5 ⟨0, 0⟩
      ⟨0, [Entry.Full 5], 1, 1, 1⟩ (Reach.init 0 0) (by decide))

/-! ## Claim C6: the tag generator -/

/-- Linear encoding of the global `(u64, u64)` counter (its second
component stays ≤ `u16::MAX` in every reachable state). -/
def eCnt (g : Nat × Nat) : Nat := g.1 * U64 + g.2

/-- Linear encoding of a prefix: in every reachable state the middle
`u32` component is `0` and the prefix determines the counter value it
was drawn at. -/
def decodePfx (p : TagPfx) : Nat := p.a * U64 + p.c

/-- Linear key of a tag: draw moment of its prefix, then offset. -/
def tagKey (t : Tag) : Nat := decodePfx t.pfx * 65536 + t.offset

/-- Validity of a tag relative to the current global counter: its
offset is a `u16` value and its prefix was drawn strictly before the
counter's current position. -/
structure TagOk (g : Nat × Nat) (t : Tag) : Prop where
  off_le : t.offset ≤ U16MAX
  dec_lt : decodePfx t.pfx < eCnt g

theorem TagOk.mono {g g' : Nat × Nat} {t : Tag} (h : TagOk g t)
    (hle : eCnt g ≤ eCnt g') : TagOk g' t :=
  ⟨h.off_le, lt_of_lt_of_le h.dec_lt hle⟩

/-- Keys of `u16`-offset tags agree exactly when the draw moments and
the offsets agree. -/
theorem tagKey_eq_iff {t1 t2 : Tag} (h1 : t1.offset ≤ U16MAX)
    (h2 : t2.offset ≤ U16MAX) :
    tagKey t1 = tagKey t2 ↔
      (decodePfx t1.pfx = decodePfx t2.pfx ∧ t1.offset = t2.offset) := by
  unfold tagKey U16MAX at *
  omega

/-- What a successful draw from the global counter produces, in a state
whose low component is a `u16` value: the prefix encodes exactly the old
counter position, and the counter strictly advances with the low
component staying a `u16` value. -/
theorem taggerNext_some {g : Nat × Nat} {p : TagPfx} {g' : Nat × Nat}
    (hg2 : g.2 ≤ U16MAX) (h : Tagger.next g = some (p, g')) :
    decodePfx p = eCnt g ∧ eCnt g < eCnt g' ∧ g'.2 ≤ U16MAX := by
  have hU : (65536 : Nat) < U64 := by norm_num [U64]
  have hmod : (g.2 + 1) % U64 = g.2 + 1 := by
    apply Nat.mod_eq_of_lt
    unfold U16MAX at hg2
    omega
  have hshift : g.2 >>> 16 = 0 := by
    rw [Nat.shiftRight_eq_div_pow]
    apply Nat.div_eq_of_lt
    unfold U16MAX at hg2
    norm_num
    omega
  have hm16 : g.2 % 2 ^ 16 = g.2 := by
    apply Nat.mod_eq_of_lt
    unfold U16MAX at hg2
    omega
  unfold Tagger.next at h
  rw [hmod] at h
  by_cases h1 : g.2 + 1 ≤ U16MAX
  · rw [if_pos h1] at h
    injection h with h
    injection h with hp hg
    subst hp
    subst hg
    refine ⟨?_, ?_, by unfold U16MAX at *; omega⟩
    · simp only [decodePfx, eCnt, hshift, hm16, Nat.zero_mod]
    · simp only [eCnt]
      omega
  · rw [if_neg h1] at h
    by_cases h2 : g.1 + 1 < U64
    · rw [if_pos h2] at h
      injection h with h
      injection h with hp hg
      subst hp
      subst hg
      refine ⟨?_, ?_, by unfold U16MAX; omega⟩
      · simp only [decodePfx, eCnt, hshift, hm16, Nat.zero_mod]
      · simp only [eCnt]
        have : g.2 < U64 := by unfold U16MAX at hg2; norm_num [U64]; omega
        nlinarith
    · rw [if_neg h2] at h
      exact absurd h (by simp)

/-- The subsequence of the attributed log produced by thread `th`. -/
def thTags (alog : List (Nat × Tag)) (th : Nat) : List Tag :=
  (alog.filter (fun p => p.1 == th)).map (fun p => p.2)

theorem thTags_append_own (alog : List (Nat × Tag)) (th : Nat) (t : Tag) :
    thTags (alog ++ [(th, t)]) th = thTags alog th ++ [t] := by
  simp [thTags, List.filter_append]

theorem thTags_append_other (alog : List (Nat × Tag)) {th th2 : Nat} (t : Tag)
    (h : th ≠ th2) : thTags (alog ++ [(th, t)]) th2 = thTags alog th2 := by
  simp [thTags, List.filter_append, h]

/-- The process invariant of the tag generator, relating the state to
the attributed log of already returned tags. -/
structure TagInv (s : TagProcState) (alog : List (Nat × Tag)) : Prop where
  glob_c : s.glob.2 ≤ U16MAX
  log_ok : ∀ p ∈ alog, TagOk s.glob p.2
  cur_ok : ∀ th c, s.locals th = some c → TagOk s.glob c
  cur_distinct : ∀ th1 th2 c1 c2, th1 ≠ th2 → s.locals th1 = some c1 →
    s.locals th2 = some c2 → decodePfx c1.pfx ≠ decodePfx c2.pfx
  log_lt_cur : ∀ th c, s.locals th = some c → ∀ p ∈ alog,
    decodePfx p.2.pfx = decodePfx c.pfx → p.2.offset < c.offset
  keys_nodup : ((alog.map (fun p => p.2)).map tagKey).Nodup
  owner : ∀ p ∈ alog, ∀ th c, s.locals th = some c →
    decodePfx p.2.pfx = decodePfx c.pfx → p.1 = th
  none_log : ∀ th, s.locals th = none → ∀ p ∈ alog, p.1 ≠ th
  chains : ∀ th, List.Chain' TagStepRel (thTags alog th)
  last_cur : ∀ th c, s.locals th = some c → ∀ x,
    (thTags alog th).getLast? = some x → TagStepRel x c

/-- The invariant holds at process start with an empty log. -/
theorem tagInv_init : TagInv tagInitState [] := by
  refine ⟨by decide, ?_, ?_, ?_, ?_, List.nodup_nil, ?_, ?_, ?_, ?_⟩
  · intro p hp; exact absurd hp (List.not_mem_nil _)
  · intro th c h; exact absurd h (by simp [tagInitState])
  · intro th1 th2 c1 c2 _ h; exact absurd h (by simp [tagInitState])
  · intro th c h; exact absurd h (by simp [tagInitState])
  · intro p hp; exact absurd hp (List.not_mem_nil _)
  · intro th _ p hp; exact absurd hp (List.not_mem_nil _)
  · intro th; simp [thTags]
  · intro th c h; exact absurd h (by simp [tagInitState])

theorem thTags_eq_nil {alog : List (Nat × Tag)} {th : Nat}
    (h : ∀ p ∈ alog, p.1 ≠ th) : thTags alog th = [] := by
  unfold thTags
  rw [List.filter_eq_nil.mpr]
  · rfl
  · intro p hp
    simp [h p hp]

/-- Initializing a thread-local cell (the `thread_local!` initializer
`Tag { prefix: GLOBAL_TAG_PREFIX.next(), offset: 0 }`) preserves the
invariant without logging anything. -/
theorem tagInv_init_cursor {s : TagProcState} {alog : List (Nat × Tag)} {th : Nat}
    {p : TagPfx} {g1 : Nat × Nat} (inv : TagInv s alog)
    (hnone : s.locals th = none) (hdraw : Tagger.next s.glob = some (p, g1)) :
    TagInv ⟨g1, Function.update s.locals th (some ⟨p, 0⟩)⟩ alog := by
  obtain ⟨hdec, hlt, hg2⟩ := taggerNext_some inv.glob_c hdraw
  have hmono : eCnt s.glob ≤ eCnt g1 := le_of_lt hlt
  refine ⟨hg2, ?_, ?_, ?_, ?_, inv.keys_nodup, ?_, ?_, inv.chains, ?_⟩
  · intro q hq
    exact (inv.log_ok q hq).mono hmono
  · intro th2 c2 h2
    dsimp only at h2 ⊢
    by_cases hth : th2 = th
    · subst hth
      rw [Function.update_same] at h2
      injection h2 with h2
      subst h2
      exact ⟨Nat.zero_le _, by dsimp only; rw [hdec]; exact hlt⟩
    · rw [Function.update_noteq hth] at h2
      exact (inv.cur_ok th2 c2 h2).mono hmono
  · intro th1 th2 c1 c2 hne h1 h2
    dsimp only at h1 h2
    by_cases hth1 : th1 = th
    · subst hth1
      rw [Function.update_same] at h1
      injection h1 with h1
      subst h1
      rw [Function.update_noteq (fun hh => hne hh.symm)] at h2
      have := (inv.cur_ok th2 c2 h2).dec_lt
      simp only [hdec]
      omega
    · rw [Function.update_noteq hth1] at h1
      by_cases hth2 : th2 = th
      · subst hth2
        rw [Function.update_same] at h2
        injection h2 with h2
        subst h2
        have := (inv.cur_ok th1 c1 h1).dec_lt
        simp only [hdec]
        omega
      · rw [Function.update_noteq hth2] at h2
        exact inv.cur_distinct th1 th2 c1 c2 hne h1 h2
  · intro th2 c2 h2 q hq hdq
    dsimp only at h2
    by_cases hth : th2 = th
    · subst hth
      rw [Function.update_same] at h2
      injection h2 with h2
      subst h2
      have := (inv.log_ok q hq).dec_lt
      simp only [hdec] at hdq
      omega
    · rw [Function.update_noteq hth] at h2
      exact inv.log_lt_cur th2 c2 h2 q hq hdq
  · intro q hq th2 c2 h2 hdq
    dsimp only at h2
    by_cases hth : th2 = th
    · subst hth
      rw [Function.update_same] at h2
      injection h2 with h2
      subst h2
      have := (inv.log_ok q hq).dec_lt
      simp only [hdec] at hdq
      omega
    · rw [Function.update_noteq hth] at h2
      exact inv.owner q hq th2 c2 h2 hdq
  · intro th2 h2 q hq
    dsimp only at h2
    by_cases hth : th2 = th
    · subst hth
      rw [Function.update_same] at h2
      exact absurd h2 (by simp)
    · rw [Function.update_noteq hth] at h2
      exact inv.none_log th2 h2 q hq
  · intro th2 c2 h2 x hx
    dsimp only at h2
    by_cases hth : th2 = th
    · subst hth
      rw [thTags_eq_nil (inv.none_log th2 hnone)] at hx
      exact absurd hx (by simp)
    · rw [Function.update_noteq hth] at h2
      exact inv.last_cur th2 c2 h2 x hx

/-- The key of a thread's current cursor never collides with an already
returned tag's key. -/
theorem tagKey_not_mem {s : TagProcState} {alog : List (Nat × Tag)} {th : Nat}
    {c : Tag} (inv : TagInv s alog) (hc : s.locals th = some c) :
    tagKey c ∉ (alog.map (fun p => p.2)).map tagKey := by
  intro hmem
  obtain ⟨t, ht, hkey⟩ := List.mem_map.mp hmem
  obtain ⟨q, hq, rfl⟩ := List.mem_map.mp ht
  have h1 := (inv.log_ok q hq).off_le
  have h2 := (inv.cur_ok th c hc).off_le
  obtain ⟨hd, ho⟩ := (tagKey_eq_iff h1 h2).mp hkey
  have := inv.log_lt_cur th c hc q hq hd
  omega

/-- The body of `next_tag` (after the thread-local cell is initialized)
preserves the invariant: the current cursor is returned and logged, and
its successor is stored. -/
theorem tagInv_body_step {s : TagProcState} {alog : List (Nat × Tag)} {th : Nat}
    {c ret : Tag} {g' : Nat × Nat} {nxt : Tag} (inv : TagInv s alog)
    (hc : s.locals th = some c)
    (hbody : nextTagBody s.glob c = some (ret, g', nxt)) :
    ret = c ∧ TagInv ⟨g', Function.update s.locals th (some nxt)⟩ (alog ++ [(th, c)]) := by
  have hcok := inv.cur_ok th c hc
  have hknot := tagKey_not_mem inv hc
  have hkeys : (((alog ++ [(th, c)]).map (fun p => p.2)).map tagKey).Nodup := by
    simp only [List.map_append]
    rw [List.nodup_append]
    refine ⟨inv.keys_nodup, by simp, ?_⟩
    intro x hx hy
    simp only [List.map_cons, List.map_nil, List.mem_singleton] at hy
    subst hy
    exact hknot hx
  have hchains : ∀ th2, List.Chain' TagStepRel (thTags (alog ++ [(th, c)]) th2) := by
    intro th2
    by_cases hth : th2 = th
    · subst hth
      rw [thTags_append_own]
      refine List.Chain'.append (inv.chains th2) (List.chain'_singleton c) ?_
      intro x hx y hy
      simp only [List.head?_cons] at hy
      injection hy with hy
      subst hy
      exact inv.last_cur th2 c hc x hx
    · rw [thTags_append_other _ _ (fun hh => hth hh.symm)]
      exact inv.chains th2
  have hnone_log : ∀ th2, Function.update s.locals th (some nxt) th2 = none →
      ∀ q ∈ alog ++ [(th, c)], q.1 ≠ th2 := by
    intro th2 h2 q hq
    by_cases hth : th2 = th
    · subst hth
      rw [Function.update_same] at h2
      exact absurd h2 (by simp)
    · rw [Function.update_noteq hth] at h2
      rcases List.mem_append.mp hq with hq | hq
      · exact inv.none_log th2 h2 q hq
      · have hq' : q = (th, c) := by simpa using hq
        subst hq'
        exact fun hh => hth hh.symm
  unfold nextTagBody at hbody
  by_cases hoff : c.offset = U16MAX
  · -- rollover: a fresh prefix is drawn
    rw [if_pos hoff] at hbody
    cases hdraw : Tagger.next s.glob with
    | none => rw [hdraw] at hbody; exact absurd hbody (by simp)
    | some pg =>
      obtain ⟨p, g1⟩ := pg
      rw [hdraw] at hbody
      injection hbody with hbody
      injection hbody with hret hbody
      injection hbody with hg hnxt
      subst hret
      subst hg
      subst hnxt
      obtain ⟨hdec, hlt, hg2⟩ := taggerNext_some inv.glob_c hdraw
      refine ⟨rfl, ⟨hg2, ?_, ?_, ?_, ?_, hkeys, ?_, hnone_log, hchains, ?_⟩⟩
      · intro q hq
        rcases List.mem_append.mp hq with hq | hq
        · exact (inv.log_ok q hq).mono (le_of_lt hlt)
        · have hq' : q = (th, c) := by simpa using hq
          subst hq'
          exact hcok.mono (le_of_lt hlt)
      · intro th2 c2 h2
        dsimp only at h2 ⊢
        by_cases hth : th2 = th
        · subst hth
          rw [Function.update_same] at h2
          injection h2 with h2
          subst h2
          exact ⟨Nat.zero_le _, by dsimp only; rw [hdec]; exact hlt⟩
        · rw [Function.update_noteq hth] at h2
          exact (inv.cur_ok th2 c2 h2).mono (le_of_lt hlt)
      · intro th1 th2 c1 c2 hne h1 h2
        dsimp only at h1 h2
        by_cases hth1 : th1 = th
        · subst hth1
          rw [Function.update_same] at h1
          injection h1 with h1
          subst h1
          rw [Function.update_noteq (fun hh => hne hh.symm)] at h2
          have := (inv.cur_ok th2 c2 h2).dec_lt
          dsimp only
          rw [hdec]
          omega
        · rw [Function.update_noteq hth1] at h1
          by_cases hth2 : th2 = th
          · subst hth2
            rw [Function.update_same] at h2
            injection h2 with h2
            subst h2
            have := (inv.cur_ok th1 c1 h1).dec_lt
            dsimp only
            rw [hdec]
            omega
          · rw [Function.update_noteq hth2] at h2
            exact inv.cur_distinct th1 th2 c1 c2 hne h1 h2
      · intro th2 c2 h2 q hq hdq
        dsimp only at h2
        by_cases hth : th2 = th
        · subst hth
          rw [Function.update_same] at h2
          injection h2 with h2
          subst h2
          dsimp only at hdq
          rw [hdec] at hdq
          rcases List.mem_append.mp hq with hq | hq
          · have := (inv.log_ok q hq).dec_lt
            omega
          · have hq' : q = (th2, c) := by simpa using hq
            subst hq'
            have := hcok.dec_lt
            dsimp only at hdq
            omega
        · rw [Function.update_noteq hth] at h2
          rcases List.mem_append.mp hq with hq | hq
          · exact inv.log_lt_cur th2 c2 h2 q hq hdq
          · have hq' : q = (th, c) := by simpa using hq
            subst hq'
            exact absurd hdq (inv.cur_distinct th th2 c c2 (fun hh => hth hh.symm) hc h2)
      · intro q hq th2 c2 h2 hdq
        dsimp only at h2
        by_cases hth : th2 = th
        · subst hth
          rw [Function.update_same] at h2
          injection h2 with h2
          subst h2
          dsimp only at hdq
          rw [hdec] at hdq
          rcases List.mem_append.mp hq with hq | hq
          · have := (inv.log_ok q hq).dec_lt
            omega
          · have hq' : q = (th2, c) := by simpa using hq
            subst hq'
            rfl
        · rw [Function.update_noteq hth] at h2
          rcases List.mem_append.mp hq with hq | hq
          · exact inv.owner q hq th2 c2 h2 hdq
          · have hq' : q = (th, c) := by simpa using hq
            subst hq'
            exact absurd hdq (inv.cur_distinct th th2 c c2 (fun hh => hth hh.symm) hc h2)
      · intro th2 c2 h2 x hx
        dsimp only at h2
        by_cases hth : th2 = th
        · subst hth
          rw [Function.update_same] at h2
          injection h2 with h2
          subst h2
          rw [thTags_append_own, List.getLast?_concat] at hx
          injection hx with hx
          subst hx
          unfold TagStepRel
          rw [if_pos hoff]
          refine ⟨rfl, ?_⟩
          intro hh
          dsimp only at hh
          have hlt2 := hcok.dec_lt
          rw [← hh, hdec] at hlt2
          exact absurd hlt2 (lt_irrefl _)
        · rw [Function.update_noteq hth] at h2
          rw [thTags_append_other _ _ (fun hh => hth hh.symm)] at hx
          exact inv.last_cur th2 c2 h2 x hx
  · -- continuation: same prefix, next offset
    rw [if_neg hoff] at hbody
    injection hbody with hbody
    injection hbody with hret hbody
    injection hbody with hg hnxt
    subst hret
    subst hg
    subst hnxt
    have hoffs : c.offset < U16MAX := lt_of_le_of_ne hcok.off_le hoff
    refine ⟨rfl, ⟨inv.glob_c, ?_, ?_, ?_, ?_, hkeys, ?_, hnone_log, hchains, ?_⟩⟩
    · intro q hq
      rcases List.mem_append.mp hq with hq | hq
      · exact inv.log_ok q hq
      · have hq' : q = (th, c) := by simpa using hq
        subst hq'
        exact hcok
    · intro th2 c2 h2
      dsimp only at h2 ⊢
      by_cases hth : th2 = th
      · subst hth
        rw [Function.update_same] at h2
        injection h2 with h2
        subst h2
        exact ⟨by dsimp only; omega, hcok.dec_lt⟩
      · rw [Function.update_noteq hth] at h2
        exact inv.cur_ok th2 c2 h2
    · intro th1 th2 c1 c2 hne h1 h2
      dsimp only at h1 h2
      by_cases hth1 : th1 = th
      · subst hth1
        rw [Function.update_same] at h1
        injection h1 with h1
        subst h1
        rw [Function.update_noteq (fun hh => hne hh.symm)] at h2
        exact inv.cur_distinct th1 th2 c c2 hne hc h2
      · rw [Function.update_noteq hth1] at h1
        by_cases hth2 : th2 = th
        · subst hth2
          rw [Function.update_same] at h2
          injection h2 with h2
          subst h2
          exact inv.cur_distinct th1 th2 c1 c hne h1 hc
        · rw [Function.update_noteq hth2] at h2
          exact inv.cur_distinct th1 th2 c1 c2 hne h1 h2
    · intro th2 c2 h2 q hq hdq
      dsimp only at h2
      by_cases hth : th2 = th
      · subst hth
        rw [Function.update_same] at h2
        injection h2 with h2
        subst h2
        dsimp only at hdq
        rcases List.mem_append.mp hq with hq | hq
        · have := inv.log_lt_cur th2 c hc q hq hdq
          dsimp only
          omega
        · have hq' : q = (th2, c) := by simpa using hq
          subst hq'
          dsimp only
          omega
      · rw [Function.update_noteq hth] at h2
        rcases List.mem_append.mp hq with hq | hq
        · exact inv.log_lt_cur th2 c2 h2 q hq hdq
        · have hq' : q = (th, c) := by simpa using hq
          subst hq'
          exact absurd hdq (inv.cur_distinct th th2 c c2 (fun hh => hth hh.symm) hc h2)
    · intro q hq th2 c2 h2 hdq
      dsimp only at h2
      by_cases hth : th2 = th
      · subst hth
        rw [Function.update_same] at h2
        injection h2 with h2
        subst h2
        dsimp only at hdq
        rcases List.mem_append.mp hq with hq | hq
        · exact inv.owner q hq th2 c hc hdq
        · have hq' : q = (th2, c) := by simpa using hq
          subst hq'
          rfl
      · rw [Function.update_noteq hth] at h2
        rcases List.mem_append.mp hq with hq | hq
        · exact inv.owner q hq th2 c2 h2 hdq
        · have hq' : q = (th, c) := by simpa using hq
          subst hq'
          exact absurd hdq (inv.cur_distinct th th2 c c2 (fun hh => hth hh.symm) hc h2)
    · intro th2 c2 h2 x hx
      dsimp only at h2
      by_cases hth : th2 = th
      · subst hth
        rw [Function.update_same] at h2
        injection h2 with h2
        subst h2
        rw [thTags_append_own, List.getLast?_concat] at hx
        injection hx with hx
        subst hx
        unfold TagStepRel
        rw [if_neg hoff]
        exact ⟨rfl, rfl⟩
      · rw [Function.update_noteq hth] at h2
        rw [thTags_append_other _ _ (fun hh => hth hh.symm)] at hx
        exact inv.last_cur th2 c2 h2 x hx

/-- Running any schedule preserves the invariant, extending the log by
the schedule zipped with the returned tags. -/
theorem runTags_inv :
    ∀ (sch : List Nat) (s : TagProcState) (alog : List (Nat × Tag)),
    TagInv s alog →
    ∀ tags s', runTags s sch = some (tags, s') →
    tags.length = sch.length ∧ TagInv s' (alog ++ sch.zip tags) := by
  intro sch
  induction sch with
  | nil =>
    intro s alog inv tags s' h
    simp only [runTags] at h
    injection h with h
    injection h with h1 h2
    subst h1
    subst h2
    exact ⟨rfl, by simpa⟩
  | cons t rest ih =>
    intro s alog inv tags s' h
    simp only [runTags] at h
    cases hstep : nextTagStep s t with
    | none => rw [hstep] at h; exact absurd h (by simp)
    | some ts1 =>
      obtain ⟨tag, s1⟩ := ts1
      rw [hstep] at h
      dsimp only at h
      cases hrun : runTags s1 rest with
      | none => rw [hrun] at h; exact absurd h (by simp)
      | some rs =>
        obtain ⟨rtags, s2⟩ := rs
        rw [hrun] at h
        injection h with h
        injection h with h1 h2
        subst h1
        subst h2
        have hstep_inv : TagInv s1 (alog ++ [(t, tag)]) := by
          unfold nextTagStep at hstep
          cases hloc : s.locals t with
          | none =>
            rw [hloc] at hstep
            dsimp only at hstep
            cases hdraw : Tagger.next s.glob with
            | none => rw [hdraw] at hstep; exact absurd hstep (by simp)
            | some pg =>
              obtain ⟨p, g1⟩ := pg
              rw [hdraw] at hstep
              dsimp only at hstep
              have hmid := tagInv_init_cursor inv hloc hdraw
              have hmidc : (⟨g1, Function.update s.locals t (some ⟨p, 0⟩)⟩ :
                  TagProcState).locals t = some ⟨p, 0⟩ := by
                dsimp only
                rw [Function.update_same]
              cases hbody : nextTagBody g1 ⟨p, 0⟩ with
              | none => rw [hbody] at hstep; exact absurd hstep (by simp)
              | some rgn =>
                obtain ⟨ret, g2, nxt⟩ := rgn
                rw [hbody] at hstep
                dsimp only at hstep
                injection hstep with hstep
                injection hstep with hret hs1
                obtain ⟨hretc, hinv2⟩ := tagInv_body_step hmid hmidc hbody
                have htag : tag = ⟨p, 0⟩ := hret.symm.trans hretc
                subst htag
                subst hs1
                dsimp only at hinv2
                rw [Function.update_idem] at hinv2
                exact hinv2
          | some c =>
            rw [hloc] at hstep
            dsimp only at hstep
            cases hbody : nextTagBody s.glob c with
            | none => rw [hbody] at hstep; exact absurd hstep (by simp)
            | some rgn =>
              obtain ⟨ret, g2, nxt⟩ := rgn
              rw [hbody] at hstep
              dsimp only at hstep
              injection hstep with hstep
              injection hstep with hret hs1
              obtain ⟨hretc, hinv2⟩ := tagInv_body_step inv hloc hbody
              have htag : tag = c := hret.symm.trans hretc
              subst htag
              subst hs1
              exact hinv2
        obtain ⟨hlen, hinvf⟩ := ih s1 (alog ++ [(t, tag)]) hstep_inv rtags s2 hrun
        refine ⟨by simp [hlen], ?_⟩
        rw [List.zip_cons_cons,
          show alog ++ ((t, tag) :: rest.zip rtags)
            = (alog ++ [(t, tag)]) ++ rest.zip rtags by simp]
        exact hinvf

/-- C6: for the tag generator, over any interleaved schedule of
`next_tag` calls by any threads that does not hit the overflow panic:
no two calls across the process's lifetime return the same
`(prefix, offset)` pair; within a single thread, successive calls
return strictly increasing offsets under one prefix until a rollover
(`offset` reaching `u16::MAX = 65535`), after which a fresh prefix is
drawn with offset `0`; and exhausting the global prefix counter space
panics (`Tagger::next` returns the `CoatCheck ID overflow!` panic)
rather than wrapping. -/
theorem next_tag_spec (sch : List Nat) (tags : List Tag)
    (h : runTagsOut sch = some tags) :
    tags.Nodup ∧ (∀ th, List.Chain' TagStepRel (threadTags sch tags th)) ∧
    Tagger.next (U64 - 1, U16MAX) = none := by
  unfold runTagsOut at h
  cases hr : runTags tagInitState sch with
  | none => rw [hr] at h; exact absurd h (by simp)
  | some pr =>
    obtain ⟨tags0, s'⟩ := pr
    rw [hr] at h
    simp only [Option.map_some'] at h
    injection h with h
    subst h
    obtain ⟨hlen, hinv⟩ := runTags_inv sch tagInitState [] tagInv_init tags0 s' hr
    rw [List.nil_append] at hinv
    refine ⟨?_, ?_, by decide⟩
    · have hk := hinv.keys_nodup
      have hmap : (sch.zip tags0).map (fun p => p.2) = tags0 := by
        rw [show (fun p : Nat × Tag => p.2) = Prod.snd from rfl]
        exact List.map_snd_zip sch tags0 (le_of_eq hlen)
      rw [hmap] at hk
      exact hk.of_map
    · intro th
      exact hinv.chains th

/-- Witness for C6: a concrete interleaving of two threads, with the
per-thread chains instantiated for both threads, and the overflow
panic. -/
theorem next_tag_spec_witness :
    runTagsOut [0, 0, 1, 0] = some
      [⟨⟨0, 0, 0⟩, 0⟩, ⟨⟨0, 0, 0⟩, 1⟩, ⟨⟨0, 0, 1⟩, 0⟩, ⟨⟨0, 0, 0⟩, 2⟩] ∧
    ([⟨⟨0, 0, 0⟩, 0⟩, ⟨⟨0, 0, 0⟩, 1⟩, ⟨⟨0, 0, 1⟩, 0⟩, ⟨⟨0, 0, 0⟩, 2⟩] :
      List Tag).Nodup ∧
    List.Chain' TagStepRel (threadTags [0, 0, 1, 0]
      [⟨⟨0, 0, 0⟩, 0⟩, ⟨⟨0, 0, 0⟩, 1⟩, ⟨⟨0, 0, 1⟩, 0⟩, ⟨⟨0, 0, 0⟩, 2⟩] 0) ∧
    List.Chain' TagStepRel (threadTags [0, 0, 1, 0]
      [⟨⟨0, 0, 0⟩, 0⟩, ⟨⟨0, 0, 0⟩, 1⟩, ⟨⟨0, 0, 1⟩, 0⟩, ⟨⟨0, 0, 0⟩, 2⟩] 1) ∧
    Tagger.next (U64 - 1, U16MAX) = none :=
  have h : runTagsOut [0, 0, 1, 0] = some
      [⟨⟨0, 0, 0⟩, 0⟩, ⟨⟨0, 0, 0⟩, 1⟩, ⟨⟨0, 0, 1⟩, 0⟩, ⟨⟨0, 0, 0⟩, 2⟩] := by decide
  have hm := next_tag_spec [0, 0, 1, 0]
    [⟨⟨0, 0, 0⟩, 0⟩, ⟨⟨0, 0, 0⟩, 1⟩, ⟨⟨0, 0, 1⟩, 0⟩, ⟨⟨0, 0, 0⟩, 2⟩] h
  ⟨h, hm.1, hm.2.1 0, hm.2.1 1, hm.2.2⟩
